import Mathlib

/-! The translation generator `generate-translations.js` of translation2json.

A shallow embedding of the translation generator and the properties of its
specification.

Conventions of the embedding

* A JavaScript string is a Lean `String`; the regular expression is run on its
  list of characters.  The pattern has no `u` flag and so works on UTF-16 code
  units, but it only names the ASCII characters `t ( ) ' "`, none of which is
  part of a surrogate pair, so matching on code points gives the same matches.
* A path is the list of its components.  The walk starts at `src` and extends
  a path by entry names only (names returned by `readdirSync`: single
  components, never empty, `.` or `..`), so `path.join(dir, file)` has nothing
  to normalise and appends the component `file`.
* A directory listing is the sequence of entries `readdirSync` returns, each
  entry a file or a directory with its own listing; the text of a file is what
  `readFileSync(path, 'utf8')` gives for its path.
* A translation table is the object `JSON.parse` returns, given by its own
  properties; reading a property also sees the properties inherited from
  `Object.prototype`.  A number is a rational or, for a literal too large for
  a double such as `1e400`, an infinity.  The written file is given by the
  object `JSON.parse` reads back from the text `JSON.stringify` writes: there
  an infinity has become `null`.
* The network is a function from the language code and the text of a request
  to the outcome of `axios.post`; file system calls are taken to succeed.
* Console output and the one-second pause between two calls are not modelled.
-/

namespace Translation2Json

/-! ## Key extractor -/

/-- The single quote character. -/
def singleQuote : Char := Char.ofNat 39

/-- The double quote character. -/
def doubleQuote : Char := Char.ofNat 34

/-- The character class of the pattern that holds the two quote characters. -/
def isQuote (c : Char) : Bool := c == singleQuote || c == doubleQuote

/-- One result of `regex.exec`: `match[0]` and `match[1]`. -/
structure RegexMatch where
  text : List Char
  group1 : List Char
  deriving DecidableEq, Repr

/-- One attempt of `/t\(['"]([^'"]+)['"]\)/` at the head of the input: the
letter `t`, an opening parenthesis, a quote, the longest run of characters that
are not quotes, a quote, a closing parenthesis.  The result is the match and
the input left after it.  The engine would retry with shorter runs, but after
a shorter run the next character is not a quote, so only the longest run can
succeed (`matchHere_eq_some_iff` states the pattern without this choice). -/
def matchHere (s : List Char) : Option (RegexMatch × List Char) :=
  match s with
  | c0 :: c1 :: q :: rest =>
    if c0 = 't' ∧ c1 = '(' ∧ isQuote q = true then
      let run := rest.takeWhile (fun c => !isQuote c)
      match rest.dropWhile (fun c => !isQuote c) with
      | q2 :: c2 :: after =>
        if run ≠ [] ∧ isQuote q2 = true ∧ c2 = ')' then
          some (⟨c0 :: c1 :: q :: (run ++ [q2, c2]), run⟩, after)
        else none
      | _ => none
    else none
  | _ => none

/-- The `while ((match = regex.exec(content)) !== null)` loop of a global
pattern, run on the input `s` that starts at offset `i` of the content: the
match is searched from `lastIndex` on, at the first position where the pattern
matches, it is recorded with its offset `match.index`, and `lastIndex` moves to
the end of the match.  The first argument bounds the number of steps;
`execFrom` gives it the length of the input, which is never exhausted
(`execFrom_unfold`). -/
def execLoop : Nat → Nat → List Char → List (Nat × RegexMatch)
  | 0, _, _ => []
  | fuel + 1, i, s =>
    match matchHere s with
    | some (m, after) => (i, m) :: execLoop fuel (i + m.text.length) after
    | none =>
      match s with
      | [] => []
      | _ :: tl => execLoop fuel (i + 1) tl

/-- The results of the loop on the input `s` that starts at offset `i`. -/
def execFrom (i : Nat) (s : List Char) : List (Nat × RegexMatch) := execLoop s.length i s

/-- All successive results of `regex.exec(content)`, in order, each with its
offset `match.index` in the content. -/
def execAll (s : List Char) : List (Nat × RegexMatch) := execFrom 0 s

/-- The method `Set.prototype.add` on a set of strings kept in insertion order. -/
def setAdd (keys : List String) (k : String) : List String :=
  if k ∈ keys then keys else keys ++ [k]

/-- The literals `match[1]` of all matches, in order of appearance. -/
def matchedLiterals (content : String) : List String :=
  (execAll content.data).map (fun x => String.mk x.2.group1)

/-- The function `extractTranslationKeys`, as a function of the text of the file:
every `match[1]` is added to a `Set`, and `Array.from(keys)` lists the set in
insertion order. -/
def extractTranslationKeys (content : String) : List String :=
  (matchedLiterals content).foldl setAdd []

/-- The text occurs somewhere in the content, as a run of consecutive
characters. -/
def occursIn (text content : String) : Prop :=
  text.data <:+: content.data

instance (text content : String) : Decidable (occursIn text content) :=
  inferInstanceAs (Decidable (text.data <:+: content.data))

/-- The call pattern stands at offset `p` of the content, with `m.text` the text
it covers and `m.group1` its literal: the content continues at `p` with `t(`, a
quote, the non-empty literal without quotes, a quote and `)`. -/
def PatternAt (content : List Char) (p : Nat) (m : RegexMatch) : Prop :=
  ∃ q1 q2, isQuote q1 = true ∧ isQuote q2 = true ∧ m.group1 ≠ [] ∧
    (∀ c ∈ m.group1, isQuote c = false) ∧
    m.text = 't' :: '(' :: q1 :: (m.group1 ++ [q2, ')']) ∧
    m.text <+: content.drop p

/-- A line terminator of JavaScript source text. -/
def isLineTerminator (c : Char) : Bool :=
  c.toNat == 10 || c.toNat == 13 || c.toNat == 8232 || c.toNat == 8233

/-! ## File collector -/

/-- A path, as the list of its components. -/
abbrev Path := List String

/-- What `fs.readdirSync(dir)` lists, entry by entry in listing order, with what
`fs.statSync` says of each entry: a file, or a directory and its own listing. -/
inductive Listing where
  | done
  | file (name : String) (rest : Listing)
  | dir (name : String) (children : Listing) (rest : Listing)
  deriving DecidableEq, Repr

/-- The alternatives of the pattern `/\.(js|jsx|tsx|vue)$/`. -/
def supportedExtensions : List String := [".js", ".jsx", ".tsx", ".vue"]

/-- The test `file.match(/\.(js|jsx|tsx|vue)$/)`: without the `m` flag `$` is the
end of the name, so the name ends with one of the four extensions. -/
def matchesSupported (file : String) : Bool :=
  supportedExtensions.any (fun e => e.data.isSuffixOf file.data)

/-- A name `readdirSync` can return: not empty, not `.` or `..`, without `/`. -/
def isEntryName (name : String) : Bool :=
  decide (name ≠ "") && decide (name ≠ ".") && decide (name ≠ "..") && !name.data.contains '/'

/-- The function `getSupportedFiles(dir)`, given the listing of `dir`: the loop
over the entries; a directory is descended into unless it is named
`node_modules`, a file is kept when its name has a supported extension.  The
path `dir` is `src` or a path the function has built itself from `src` and
entry names; for such a path `path.join(dir, file)` appends `file`. -/
def getSupportedFiles (dir : Path) : Listing → List Path
  | .done => []
  | .file name rest =>
    (if matchesSupported name then [dir ++ [name]] else []) ++ getSupportedFiles dir rest
  | .dir name children rest =>
    (if name ≠ "node_modules" then getSupportedFiles (dir ++ [name]) children else [])
      ++ getSupportedFiles dir rest

/-- Whether the relative path names a file of the listing. -/
def Listing.hasFile : Listing → Path → Bool
  | .done, _ => false
  | .file name rest, p => p == [name] || rest.hasFile p
  | .dir name children rest, p =>
    (match p with
      | [] => false
      | c :: q => c == name && children.hasFile q) || rest.hasFile p

/-! ## Values and translation tables -/

mutual
/-- A value produced by `JSON.parse`.  A number is a finite value, or the
infinity `JSON.parse` gives for a literal beyond the range of a double. -/
inductive JVal where
  | null
  | bool (b : Bool)
  | num (q : ℚ)
  | infinity (negative : Bool)
  | str (s : String)
  | arr (items : JArr)
  | obj (fields : JObj)
  deriving DecidableEq
/-- The elements of an array. -/
inductive JArr where
  | nil
  | cons (head : JVal) (tail : JArr)
  deriving DecidableEq
/-- The own properties of an object. -/
inductive JObj where
  | nil
  | cons (key : String) (value : JVal) (rest : JObj)
  deriving DecidableEq
end

/-- JavaScript truthiness of a parsed value: `null`, `false`, `0` and the empty
string are falsy, everything else (an infinity, every array and object too) is
truthy. -/
def JVal.truthy : JVal → Bool
  | .null => false
  | .bool b => b
  | .num q => decide (q ≠ 0)
  | .infinity _ => true
  | .str s => decide (s ≠ "")
  | .arr _ => true
  | .obj _ => true

mutual
/-- The value `JSON.parse` reads back from the text `JSON.stringify` writes for
a value: `JSON.stringify` writes an infinity as `null`, also inside an array or
an object, and every other value as a text that parses to the same value. -/
def jsonWritten : JVal → JVal
  | .null => .null
  | .bool b => .bool b
  | .num q => .num q
  | .infinity _ => .null
  | .str s => .str s
  | .arr items => .arr (jsonWrittenItems items)
  | .obj fields => .obj (jsonWrittenFields fields)
/-- The elements of a written array. -/
def jsonWrittenItems : JArr → JArr
  | .nil => .nil
  | .cons head tail => .cons (jsonWritten head) (jsonWrittenItems tail)
/-- The properties of a written object. -/
def jsonWrittenFields : JObj → JObj
  | .nil => .nil
  | .cons key value rest => .cons key (jsonWritten value) (jsonWrittenFields rest)
end

mutual
/-- Whether the value holds no infinity, so that it is written as itself. -/
def JVal.representable : JVal → Bool
  | .infinity _ => false
  | .arr items => items.representable
  | .obj fields => fields.representable
  | _ => true
/-- Whether no element holds an infinity. -/
def JArr.representable : JArr → Bool
  | .nil => true
  | .cons head tail => head.representable && tail.representable
/-- Whether no property holds an infinity. -/
def JObj.representable : JObj → Bool
  | .nil => true
  | .cons _ value rest => value.representable && rest.representable
end

/-- A translation table: the own properties of the object, key and value.  The
order in which the engine enumerates the properties is not modelled, a table is
read through `Table.get` only. -/
abbrev Table := List (String × JVal)

/-- The own property `key` of the table, if any. -/
def Table.get (t : Table) (key : String) : Option JVal := t.lookup key

/-- The names of the properties every plain object inherits from
`Object.prototype`; each holds a function (or, for `__proto__`, the prototype
object), a truthy value. -/
def objectPrototypeKeys : List String :=
  ["constructor", "__defineGetter__", "__defineSetter__", "hasOwnProperty",
   "__lookupGetter__", "__lookupSetter__", "isPrototypeOf", "propertyIsEnumerable",
   "toString", "valueOf", "__proto__", "toLocaleString"]

/-- The test `!existingTranslations[key]` of the filter: the property is read
from the object itself or else from `Object.prototype`, and its value is
negated. -/
def isMissing (existing : Table) (key : String) : Bool :=
  match existing.get key with
  | some v => !v.truthy
  | none => !objectPrototypeKeys.contains key

/-- The assignment `translations[key] = value` of a string: an own property is
overwritten; otherwise a new own property is added, except under the name
`__proto__`, where the inherited setter runs and ignores a string. -/
def Table.assign (t : Table) (key : String) (value : JVal) : Table :=
  if (t.get key).isSome then
    t.map (fun e => if e.1 = key then (key, value) else e)
  else if key = "__proto__" then t
  else t ++ [(key, value)]

/-- The object `JSON.parse` reads back from the text
`JSON.stringify(translations, null, 2)` written to the language file. -/
def writtenTable (t : Table) : Table := t.map (fun e => (e.1, jsonWritten e.2))

/-- The file `src/lang/<langCode>.json` as `loadExistingTranslations` finds it:
absent, present with a text `JSON.parse` rejects, or present with the text of an
object.  A text that parses to something else (an array, a string, `null`) is
not a translation table and is left out. -/
inductive LangFile where
  | absent
  | invalid
  | parsed (table : Table)

/-- The function `loadExistingTranslations`: the parsed object, or the empty
object when the file is absent or cannot be parsed. -/
def loadExistingTranslations : LangFile → Table
  | .absent => []
  | .invalid => []
  | .parsed table => table

/-! ## Translator client -/

/-- How `axios.post` rejects: with a response (a status outside 2xx), with a
request but no response (network error, timeout), or before sending. -/
inductive AxiosFailure where
  | response
  | request
  | setup
  deriving DecidableEq

/-- The outcome of `await axios.post(...)`: `response.data` or a rejection. -/
inductive PostResult where
  | resolved (data : JVal)
  | rejected (failure : AxiosFailure)
  deriving DecidableEq

/-- The result of reading a property: a `TypeError`, `undefined`, or a value. -/
inductive PropertyRead where
  | threw
  | undefined
  | val (v : JVal)
  deriving DecidableEq

/-- The own property `key` of an object. -/
def JObj.get : JObj → String → Option JVal
  | .nil, _ => none
  | .cons k v rest, key => if k = key then some v else rest.get key

/-- The property names read from the response; none of them is the name of an
inherited property of an object, array, string, number or boolean. -/
def responseKeys : List String := ["choices", "0", "message", "content"]

/-- The read `base[key]` for a `key` of `responseKeys`: it throws on `undefined`
and `null`; an object gives its own property, an array and a string give their
first element under `"0"` (of a string, a one-character string), and everything
else is `undefined`. -/
def getMember (base : PropertyRead) (key : String) : PropertyRead :=
  match base with
  | .threw => .threw
  | .undefined => .threw
  | .val .null => .threw
  | .val (.obj fields) =>
    match fields.get key with
    | some v => .val v
    | none => .undefined
  | .val (.arr items) =>
    if key = "0" then
      match items with
      | .nil => .undefined
      | .cons head _ => .val head
    else .undefined
  | .val (.str s) =>
    if key = "0" ∧ s ≠ "" then .val (.str (String.mk (s.data.take 1))) else .undefined
  | .val (.num _) => .undefined
  | .val (.infinity _) => .undefined
  | .val (.bool _) => .undefined

/-- The white space and line terminator characters `String.prototype.trim`
removes. -/
def isJsWhitespace (c : Char) : Bool :=
  [9, 10, 11, 12, 13, 32, 160, 5760, 8232, 8233, 8239, 8287, 12288, 65279].contains c.toNat
    || (8192 ≤ c.toNat && c.toNat ≤ 8202)

/-- The method `String.prototype.trim`. -/
def jsTrim (s : String) : String :=
  String.mk ((s.data.dropWhile isJsWhitespace).reverse.dropWhile isJsWhitespace).reverse

/-- The expression `response.data.choices[0].message.content` when `.trim()` can be
called on it, that is when it evaluates to a string; `none` when the evaluation
of `response.data.choices[0].message.content.trim()` throws. -/
def completionContent (data : JVal) : Option String :=
  match getMember (getMember (getMember (getMember (.val data) "choices") "0") "message")
      "content" with
  | .val (.str s) => some s
  | _ => none

/-- The first element of the completions: element `0` of an array, or the
property `0` of an object. -/
def firstElement : JVal → Option JVal
  | .arr (.cons head _) => some head
  | .obj fields => fields.get "0"
  | _ => none

/-- The response body holds `content` as the content of its first completion:
the body is an object whose `choices` has a first element, an object whose
`message` is an object whose `content` is the string `content`. -/
def FirstCompletionContent (data : JVal) (content : String) : Prop :=
  ∃ fields choices first message, data = .obj fields ∧
    fields.get "choices" = some choices ∧ firstElement choices = some (.obj first) ∧
    first.get "message" = some (.obj message) ∧ message.get "content" = some (.str content)

/-- The string `t` is `s` without its leading and trailing white space: `s` is `t`
between two runs of white space, and `t` neither begins nor ends with white
space. -/
def IsTrimOf (s t : String) : Prop :=
  ∃ pre post : List Char, s.data = pre ++ t.data ++ post ∧
    (∀ c ∈ pre, isJsWhitespace c = true) ∧ (∀ c ∈ post, isJsWhitespace c = true) ∧
    (∀ c, t.data.head? = some c → isJsWhitespace c = false) ∧
    (∀ c, t.data.getLast? = some c → isJsWhitespace c = false)

/-- The network: the outcome of the request sent for a language code and a text.
The request body and headers are determined by these two (the URL, the model
and the key are constants of the process), and a run sends at most one request
per text. -/
abbrev Network := String → String → PostResult

/-- The function `translateText(text, langCode)`: the returned string and the
requests sent, a pair of language code and text each. -/
def translateText (post : Network) (text langCode : String) :
    String × List (String × String) :=
  if langCode = "en" then (text, [])
  else
    match post langCode text with
    | .resolved data =>
      match completionContent data with
      | some content => (jsTrim content, [(langCode, text)])
      | none => (text, [(langCode, text)])
    | .rejected _ => (text, [(langCode, text)])

/-! ## Orchestrator -/

/-- What a run of `generateTranslations` computes and does. -/
structure Run where
  /-- The collected source files. -/
  files : List Path
  /-- The global key set `allKeys`, in insertion order. -/
  allKeys : List String
  /-- The pending keys `newKeys`. -/
  newKeys : List String
  /-- The keys `translateText` was called with, in order. -/
  translated : List String
  /-- The requests sent to the network, in order. -/
  requests : List (String × String)
  /-- The object `translations` at the end of the loop. -/
  translations : Table
  /-- The table written to `src/lang/<langCode>.json`. -/
  written : Table

/-- The state of the `for (const key of newKeys)` loop. -/
structure LoopState where
  translations : Table
  translated : List String
  requests : List (String × String)

/-- The loop `for (const key of newKeys) translations[key] = await translateText(key, langCode)`. -/
def translateLoop (post : Network) (langCode : String) : List String → LoopState → LoopState
  | [], st => st
  | key :: rest, st =>
    let r := translateText post key langCode
    translateLoop post langCode rest
      ⟨st.translations.assign key (.str r.1), st.translated ++ [key], st.requests ++ r.2⟩

/-- The global key set: the keys of every file are added to one `Set`. -/
def collectKeys (readFileSync : Path → String) (files : List Path) : List String :=
  files.foldl (fun allKeys file => (extractTranslationKeys (readFileSync file)).foldl setAdd allKeys) []

/-- The function `generateTranslations`.  Its inputs are the network, the text
`readFileSync` gives for each path, the listing of the directory `src`, the
state of the language file, and `process.argv[2]`.  Without a language code
(`undefined` or empty) the process exits with status 1 and there is no run.
File system calls are taken to succeed. -/
def generateTranslations (post : Network) (readFileSync : Path → String) (src : Listing)
    (langFile : LangFile) (argv2 : Option String) : Option Run :=
  match argv2 with
  | none => none
  | some langCode =>
    if langCode = "" then none
    else
      let files := getSupportedFiles ["src"] src
      let allKeys := collectKeys readFileSync files
      let existingTranslations := loadExistingTranslations langFile
      let newKeys := allKeys.filter (isMissing existingTranslations)
      let final := translateLoop post langCode newKeys ⟨existingTranslations, [], []⟩
      some ⟨files, allKeys, newKeys, final.translated, final.requests, final.translations,
        writtenTable final.translations⟩

/-- The key `k` stands in a source file: some file of the tree under `src` that is
not below a directory named `node_modules` and whose name ends in a supported
extension contains `t('k')` or `t("k")`, where `k` is non-empty, holds no quote
and does not begin with `)`. -/
def SourceKey (readFileSync : Path → String) (src : Listing) (k : String) : Prop :=
  ∃ rel name, src.hasFile rel = true ∧ rel.getLast? = some name ∧
    (∃ ext ∈ supportedExtensions, ∃ stem : String, name = stem ++ ext) ∧
    "node_modules" ∉ rel ∧ k ≠ "" ∧ (∀ c ∈ k.data, c ≠ singleQuote ∧ c ≠ doubleQuote) ∧
    k.data.head? ≠ some ')' ∧
    (occursIn ("t('" ++ k ++ "')") (readFileSync ("src" :: rel)) ∨
      occursIn ("t(\x22" ++ k ++ "\x22)") (readFileSync ("src" :: rel)))

/-! ## Data for the examples -/

/-- A response body whose first completion holds the given content. -/
def completionBody (content : String) : JVal :=
  .obj (.cons "choices"
    (.arr (.cons (.obj (.cons "message" (.obj (.cons "content" (.str content) .nil)) .nil)) .nil))
    .nil)

/-- A network of the examples: `Save` is translated, with spaces around the
answer, the request for `Cancel` times out, and every other request gets a body
without completions. -/
def stubNetwork : Network := fun _ text =>
  if text = "Save" then .resolved (completionBody " 保存 ")
  else if text = "Cancel" then .rejected .request
  else .resolved (.obj .nil)

/-- A source tree of the examples: `src/App.js`, a pruned `src/node_modules` and
`src/views/Home.vue`. -/
def sampleSrc : Listing :=
  .file "App.js" (.dir "node_modules" (.file "x.js" .done)
    (.dir "views" (.file "Home.vue" (.file "notes.txt" .done)) .done))

/-- The file contents of the examples. -/
def sampleRead : Path → String := fun p =>
  if p = ["src", "App.js"] then "save = t('Save'); cancel = t(\x22Cancel\x22);"
  else if p = ["src", "views", "Home.vue"] then "t('Hello') t('Save') t('Bye')"
  else ""

/-- The run of the examples for `zh`, without a language file. -/
def sampleFirst : Run where
  files := [["src", "App.js"], ["src", "views", "Home.vue"]]
  allKeys := ["Save", "Cancel", "Hello", "Bye"]
  newKeys := ["Save", "Cancel", "Hello", "Bye"]
  translated := ["Save", "Cancel", "Hello", "Bye"]
  requests := [("zh", "Save"), ("zh", "Cancel"), ("zh", "Hello"), ("zh", "Bye")]
  translations :=
    [("Save", .str "保存"), ("Cancel", .str "Cancel"), ("Hello", .str "Hello"),
     ("Bye", .str "Bye")]
  written :=
    [("Save", .str "保存"), ("Cancel", .str "Cancel"), ("Hello", .str "Hello"),
     ("Bye", .str "Bye")]

/-- The file contents of the example with an overflowing number. -/
def bigRead : Path → String := fun _ => "t('Big') t('Save')"

/-- The table `JSON.parse` gives for a language file that holds `"Big": 1e400`. -/
def bigTable : Table := [("Big", .infinity false)]

end Translation2Json

namespace Translation2Json

/-! ## The pattern, stated without the greedy choice -/

theorem takeWhile_append_stop {p : Char → Bool} (k : List Char) (x : Char) (tl : List Char)
    (hk : ∀ c ∈ k, p c = true) (hx : p x = false) :
    (k ++ x :: tl).takeWhile p = k ∧ (k ++ x :: tl).dropWhile p = x :: tl := by
  induction k with
  | nil => simp [List.takeWhile, List.dropWhile, hx]
  | cons c k ih =>
    have hc : p c = true := hk c (List.mem_cons_self _ _)
    have ih2 := ih (fun d hd => hk d (List.mem_cons_of_mem _ hd))
    simp [List.takeWhile, List.dropWhile, hc, ih2.1, ih2.2]

/-- The pattern matches at the head of `s`, with group `k` and remaining input
`after`, exactly when `s` is `t(`, a quote, the non-empty quote-free text `k`, a
quote, `)` and then `after`. -/
theorem matchHere_eq_some_iff (s : List Char) (m : RegexMatch) (after : List Char) :
    matchHere s = some (m, after) ↔
      ∃ q1 q2 k, isQuote q1 = true ∧ isQuote q2 = true ∧ k ≠ [] ∧ (∀ c ∈ k, isQuote c = false) ∧
        s = 't' :: '(' :: q1 :: (k ++ q2 :: ')' :: after) ∧
        m = ⟨'t' :: '(' :: q1 :: (k ++ [q2, ')']), k⟩ := by
  constructor
  · intro h
    unfold matchHere at h
    split at h
    · rename_i c0 c1 q rest
      split at h
      · rename_i hc
        obtain ⟨h0, h1, hq⟩ := hc
        simp only at h
        split at h
        · rename_i q2 c2 after2 hdrop
          split at h
          · rename_i hc2
            obtain ⟨hrun, hq2, h2⟩ := hc2
            simp only [Option.some.injEq, Prod.mk.injEq] at h
            obtain ⟨hm, hafter⟩ := h
            refine ⟨q, q2, rest.takeWhile (fun c => !isQuote c), hq, hq2, hrun, ?_, ?_, ?_⟩
            · intro c hc
              have := List.mem_takeWhile_imp hc
              simpa using this
            · have hsplit := List.takeWhile_append_dropWhile (fun c => !isQuote c) rest
              rw [hdrop] at hsplit
              subst h0 h1 h2 hafter
              rw [hsplit]
            · subst h0 h1 h2
              exact hm.symm
          · exact absurd h (by simp)
        · exact absurd h (by simp)
      · exact absurd h (by simp)
    · exact absurd h (by simp)
  · rintro ⟨q1, q2, k, hq1, hq2, hk, hno, hs, hm⟩
    subst hs hm
    have hstop := takeWhile_append_stop (p := fun c => !isQuote c) k q2 (')' :: after)
      (by intro c hc; simp [hno c hc]) (by simp [hq2])
    simp only [matchHere, hq1, and_self, if_true, hstop.1, hstop.2, hk, hq2, ne_eq,
      not_false_eq_true, List.append_assoc, List.cons_append, List.nil_append]

/-- The input left after a match is shorter than the input. -/
theorem matchHere_length {s : List Char} {m : RegexMatch} {after : List Char}
    (h : matchHere s = some (m, after)) : after.length < s.length := by
  obtain ⟨q1, q2, k, -, -, -, -, hs, -⟩ := (matchHere_eq_some_iff s m after).1 h
  subst hs
  simp only [List.length_cons, List.length_append]
  omega

theorem execLoop_fuel : ∀ (n : Nat) (i : Nat) (s : List Char), s.length ≤ n →
    ∀ m, s.length ≤ m → execLoop n i s = execLoop m i s := by
  intro n
  induction n with
  | zero =>
    intro i s hs m _
    have : s = [] := List.length_eq_zero.mp (Nat.le_zero.mp hs)
    subst this
    cases m with
    | zero => rfl
    | succ m => simp [execLoop, matchHere]
  | succ n ih =>
    intro i s hs m hm
    cases m with
    | zero =>
      have : s = [] := List.length_eq_zero.mp (Nat.le_zero.mp hm)
      subst this
      simp [execLoop, matchHere]
    | succ m =>
      simp only [execLoop]
      cases hmatch : matchHere s with
      | some r =>
        obtain ⟨mt, after⟩ := r
        have hlt := matchHere_length hmatch
        simp only
        rw [ih _ after (by omega) m (by omega)]
      | none =>
        cases s with
        | nil => rfl
        | cons c tl =>
          simp only [List.length_cons] at hs hm
          simp only
          rw [ih _ tl (by omega) m (by omega)]

/-- The loop never runs out of steps: `execFrom` satisfies the equation of the
`exec` loop. -/
theorem execFrom_unfold (i : Nat) (s : List Char) :
    execFrom i s =
      match matchHere s with
      | some (m, after) => (i, m) :: execFrom (i + m.text.length) after
      | none =>
        match s with
        | [] => []
        | _ :: tl => execFrom (i + 1) tl := by
  unfold execFrom
  cases s with
  | nil => simp [execLoop, matchHere]
  | cons c tl =>
    simp only [List.length_cons, execLoop]
    cases hmatch : matchHere (c :: tl) with
    | some r =>
      obtain ⟨mt, after⟩ := r
      have hlt := matchHere_length hmatch
      simp only [List.length_cons] at hlt
      simp only
      rw [execLoop_fuel tl.length _ after (by omega) after.length (le_refl _)]
    | none => rfl

/-! ## The matches and the content -/

/-- A match at the head of the input covers the beginning of the input. -/
theorem matchHere_text {s : List Char} {m : RegexMatch} {after : List Char}
    (h : matchHere s = some (m, after)) :
    s = m.text ++ after ∧ PatternAt s 0 m ∧ 0 < m.text.length := by
  obtain ⟨q1, q2, k, hq1, hq2, hk, hno, hs, hm⟩ := (matchHere_eq_some_iff s m after).1 h
  subst hm
  have hsplit : s = ('t' :: '(' :: q1 :: (k ++ [q2, ')'])) ++ after := by
    rw [hs]; simp
  refine ⟨hsplit, ⟨q1, q2, hq1, hq2, hk, hno, rfl, ?_⟩, by simp⟩
  simp only [List.drop_zero]
  exact ⟨after, hsplit.symm⟩

/-- The pattern stands at the head of the input exactly when the attempt at the
head succeeds, and then with that match. -/
theorem patternAt_zero {s : List Char} {m : RegexMatch} (h : PatternAt s 0 m) :
    ∃ after, matchHere s = some (m, after) := by
  obtain ⟨q1, q2, hq1, hq2, hk, hno, htext, after, hpre⟩ := h
  simp only [List.drop_zero] at hpre
  refine ⟨after, (matchHere_eq_some_iff s m after).2 ⟨q1, q2, m.group1, hq1, hq2, hk, hno, ?_, ?_⟩⟩
  · rw [← hpre, htext]; simp
  · cases m with
    | mk text group1 => simp only at htext; rw [htext]

theorem patternAt_cons {c : Char} {tl : List Char} {d : Nat} {m : RegexMatch} :
    PatternAt (c :: tl) (d + 1) m ↔ PatternAt tl d m := by
  simp [PatternAt]

theorem patternAt_append (pre s : List Char) (d : Nat) (m : RegexMatch) :
    PatternAt (pre ++ s) (pre.length + d) m ↔ PatternAt s d m := by
  simp [PatternAt, List.drop_append]

/-- Every recorded match stands in the input at its recorded offset. -/
theorem execFrom_sound : ∀ (n i : Nat) (s : List Char), s.length ≤ n →
    ∀ x ∈ execFrom i s, ∃ d, x.1 = i + d ∧ PatternAt s d x.2 := by
  intro n
  induction n with
  | zero =>
    intro i s hs x hx
    have : s = [] := List.length_eq_zero.mp (Nat.le_zero.mp hs)
    subst this
    rw [execFrom_unfold] at hx
    simp [matchHere] at hx
  | succ n ih =>
    intro i s hs x hx
    rw [execFrom_unfold] at hx
    cases hmatch : matchHere s with
    | some r =>
      obtain ⟨m0, after⟩ := r
      rw [hmatch] at hx
      simp only [List.mem_cons] at hx
      have hlt := matchHere_length hmatch
      obtain ⟨hsplit, hpat, -⟩ := matchHere_text hmatch
      rcases hx with hx | hx
      · subst hx
        exact ⟨0, rfl, hpat⟩
      · obtain ⟨d, hd, hp⟩ := ih _ after (by omega) x hx
        refine ⟨m0.text.length + d, by omega, ?_⟩
        rw [hsplit]
        exact (patternAt_append _ _ _ _).2 hp
    | none =>
      rw [hmatch] at hx
      cases s with
      | nil => simp at hx
      | cons c tl =>
        simp only at hx
        simp only [List.length_cons] at hs
        obtain ⟨d, hd, hp⟩ := ih _ tl (by omega) x hx
        exact ⟨d + 1, by omega, patternAt_cons.2 hp⟩

/-- The recorded matches follow one another without overlap. -/
theorem execFrom_sorted : ∀ (n i : Nat) (s : List Char), s.length ≤ n →
    (execFrom i s).Pairwise (fun x y => x.1 + x.2.text.length ≤ y.1) := by
  intro n
  induction n with
  | zero =>
    intro i s hs
    have : s = [] := List.length_eq_zero.mp (Nat.le_zero.mp hs)
    subst this
    rw [execFrom_unfold]
    simp [matchHere]
  | succ n ih =>
    intro i s hs
    rw [execFrom_unfold]
    cases hmatch : matchHere s with
    | some r =>
      obtain ⟨m0, after⟩ := r
      have hlt := matchHere_length hmatch
      simp only [List.pairwise_cons]
      refine ⟨?_, ih _ after (by omega)⟩
      intro y hy
      obtain ⟨d, hd, -⟩ := execFrom_sound after.length _ after (le_refl _) y hy
      omega
    | none =>
      cases s with
      | nil => simp
      | cons c tl =>
        simp only [List.length_cons] at hs
        exact ih _ tl (by omega)

/-- Wherever the pattern stands in the input, outside the inside of every
recorded match, it is recorded. -/
theorem execFrom_complete : ∀ (n i : Nat) (s : List Char), s.length ≤ n →
    ∀ (d : Nat) (m : RegexMatch), PatternAt s d m →
      (∀ x ∈ execFrom i s, ¬ (x.1 < i + d ∧ i + d < x.1 + x.2.text.length)) →
      (i + d, m) ∈ execFrom i s := by
  intro n
  induction n with
  | zero =>
    intro i s hs d m hp _
    have : s = [] := List.length_eq_zero.mp (Nat.le_zero.mp hs)
    subst this
    obtain ⟨q1, q2, -, -, -, -, htext, hpre⟩ := hp
    rw [htext] at hpre
    simp at hpre
  | succ n ih =>
    intro i s hs d m hp hfree
    rw [execFrom_unfold] at hfree ⊢
    cases hmatch : matchHere s with
    | some r =>
      obtain ⟨m0, after⟩ := r
      rw [hmatch] at hfree
      simp only [List.mem_cons, forall_eq_or_imp] at hfree
      simp only [List.mem_cons]
      have hlt := matchHere_length hmatch
      obtain ⟨hsplit, -, -⟩ := matchHere_text hmatch
      obtain ⟨hhead, hrest⟩ := hfree
      by_cases hd0 : d = 0
      · subst hd0
        obtain ⟨after2, h2⟩ := patternAt_zero hp
        rw [hmatch] at h2
        simp only [Option.some.injEq, Prod.mk.injEq] at h2
        left
        rw [h2.1]
        rfl
      · have hge : m0.text.length ≤ d := by
          by_contra hlt2
          exact hhead ⟨by omega, by omega⟩
        obtain ⟨e, he⟩ : ∃ e, d = m0.text.length + e := ⟨d - m0.text.length, by omega⟩
        subst he
        rw [hsplit] at hp
        have hp2 := (patternAt_append _ _ _ _).1 hp
        right
        have := ih (i + m0.text.length) after (by omega) e m hp2 (by
          intro x hx
          have := hrest x hx
          intro h3
          exact this ⟨by omega, by omega⟩)
        rw [Nat.add_assoc] at this
        exact this
    | none =>
      rw [hmatch] at hfree
      cases s with
      | nil =>
        obtain ⟨q1, q2, -, -, -, -, htext, hpre⟩ := hp
        rw [htext] at hpre
        simp at hpre
      | cons c tl =>
        simp only at hfree ⊢
        simp only [List.length_cons] at hs
        cases d with
        | zero =>
          obtain ⟨after2, h2⟩ := patternAt_zero hp
          rw [hmatch] at h2
          exact absurd h2 (by simp)
        | succ e =>
          have hp2 := patternAt_cons.1 hp
          have := ih (i + 1) tl (by omega) e m hp2 (by
            intro x hx
            have := hfree x hx
            intro h3
            exact this ⟨by omega, by omega⟩)
          have heq : i + (e + 1) = i + 1 + e := by omega
          rw [heq]
          exact this

end Translation2Json

namespace Translation2Json

/-! ## The set of keys -/

theorem mem_foldl_setAdd (l : List String) : ∀ (acc : List String) (x : String),
    x ∈ l.foldl setAdd acc ↔ x ∈ acc ∨ x ∈ l := by
  induction l with
  | nil => intro acc x; simp
  | cons y l ih =>
    intro acc x
    rw [List.foldl_cons, ih]
    unfold setAdd
    by_cases hy : y ∈ acc
    · simp only [hy, if_true, List.mem_cons]
      constructor
      · rintro (h | h)
        · exact Or.inl h
        · exact Or.inr (Or.inr h)
      · rintro (h | h | h)
        · exact Or.inl h
        · exact Or.inl (h ▸ hy)
        · exact Or.inr h
    · simp only [hy, if_false, List.mem_append, List.mem_singleton, List.mem_cons]
      tauto

theorem nodup_foldl_setAdd (l : List String) : ∀ (acc : List String),
    acc.Nodup → (l.foldl setAdd acc).Nodup := by
  induction l with
  | nil => intro acc h; simpa using h
  | cons y l ih =>
    intro acc h
    rw [List.foldl_cons]
    apply ih
    unfold setAdd
    by_cases hy : y ∈ acc
    · simpa [hy] using h
    · simp only [hy, if_false]
      exact List.Nodup.append h (List.nodup_singleton y) (by simpa using hy)

theorem indexOf_append_skip (acc l : List String) (x c : String) (hx : x ∈ acc) :
    (c ∈ acc ∧ List.indexOf c (acc ++ l) = List.indexOf c acc ∧
        List.indexOf c (acc ++ x :: l) = List.indexOf c acc ∧ List.indexOf c acc < acc.length) ∨
      (c ∉ acc ∧ List.indexOf c (acc ++ l) = acc.length + List.indexOf c l ∧
        List.indexOf c (acc ++ x :: l) = acc.length + (List.indexOf c l + 1)) := by
  by_cases hc : c ∈ acc
  · left
    exact ⟨hc, List.indexOf_append_of_mem hc, List.indexOf_append_of_mem hc,
      List.indexOf_lt_length.2 hc⟩
  · right
    have hne : x ≠ c := fun h => hc (h ▸ hx)
    refine ⟨hc, ?_, ?_⟩
    · rw [List.indexOf_append_of_not_mem hc, Nat.add_comm]
    · rw [List.indexOf_append_of_not_mem hc, List.indexOf_cons_ne _ hne, Nat.add_comm]

theorem order_foldl_setAdd (l : List String) : ∀ (acc : List String) (a b : String),
    (List.indexOf a (l.foldl setAdd acc) < List.indexOf b (l.foldl setAdd acc) ↔
      List.indexOf a (acc ++ l) < List.indexOf b (acc ++ l)) := by
  induction l with
  | nil => intro acc a b; simp
  | cons x l ih =>
    intro acc a b
    rw [List.foldl_cons, ih]
    unfold setAdd
    by_cases hx : x ∈ acc
    · simp only [hx, if_true]
      rcases indexOf_append_skip acc l x a hx with ⟨-, ha1, ha2, ha3⟩ | ⟨-, ha1, ha2⟩ <;>
        rcases indexOf_append_skip acc l x b hx with ⟨-, hb1, hb2, hb3⟩ | ⟨-, hb1, hb2⟩ <;>
        rw [ha1, ha2, hb1, hb2] <;> omega
    · simp only [hx, if_false, List.append_assoc, List.singleton_append]

theorem indexOf_map_lt_iff (f : Nat × RegexMatch → String) :
    ∀ (L : List (Nat × RegexMatch)), L.Pairwise (fun x y => x.1 < y.1) → ∀ a b : String,
      (List.indexOf a (L.map f) < List.indexOf b (L.map f) ↔
        ∃ x ∈ L, f x = a ∧ ∀ y ∈ L, f y = b → x.1 < y.1) := by
  intro L
  induction L with
  | nil => intro _ a b; simp
  | cons z L ih =>
    intro hp a b
    rw [List.pairwise_cons] at hp
    obtain ⟨hz, hL⟩ := hp
    simp only [List.map_cons]
    by_cases hza : f z = a
    · rw [List.indexOf_cons_eq _ hza]
      by_cases hzb : f z = b
      · rw [List.indexOf_cons_eq _ hzb]
        constructor
        · intro h; omega
        · rintro ⟨x, hx, hxa, hall⟩
          have := hall x hx (by rw [hxa, ← hza, hzb])
          omega
      · rw [List.indexOf_cons_ne _ hzb]
        constructor
        · intro _
          refine ⟨z, List.mem_cons_self _ _, hza, ?_⟩
          intro y hy hyb
          rcases List.mem_cons.1 hy with h | h
          · subst h; exact absurd hyb hzb
          · exact hz y h
        · intro _; omega
    · rw [List.indexOf_cons_ne _ hza]
      by_cases hzb : f z = b
      · rw [List.indexOf_cons_eq _ hzb]
        constructor
        · intro h; omega
        · rintro ⟨x, hx, hxa, hall⟩
          rcases List.mem_cons.1 hx with h | h
          · subst h; exact absurd hxa hza
          · have h1 := hall z (List.mem_cons_self _ _) hzb
            have h2 := hz x h
            omega
      · rw [List.indexOf_cons_ne _ hzb, Nat.succ_lt_succ_iff, ih hL a b]
        constructor
        · rintro ⟨x, hx, hxa, hall⟩
          refine ⟨x, List.mem_cons_of_mem _ hx, hxa, ?_⟩
          intro y hy hyb
          rcases List.mem_cons.1 hy with h | h
          · subst h; exact absurd hyb hzb
          · exact hall y h hyb
        · rintro ⟨x, hx, hxa, hall⟩
          rcases List.mem_cons.1 hx with h | h
          · subst h; exact absurd hxa hza
          · exact ⟨x, h, hxa, fun y hy hyb => hall y (List.mem_cons_of_mem _ hy) hyb⟩

/-! ## Matches and occurrences of the call pattern -/

theorem execAll_patternAt (s : List Char) : ∀ x ∈ execAll s, PatternAt s x.1 x.2 := by
  intro x hx
  obtain ⟨d, hd, hp⟩ := execFrom_sound s.length 0 s (le_refl _) x hx
  have : x.1 = d := by omega
  rw [this]
  exact hp

theorem execAll_increasing (s : List Char) :
    (execAll s).Pairwise (fun x y => x.1 < y.1) := by
  refine List.Pairwise.imp_of_mem ?_ (execFrom_sorted s.length 0 s (le_refl _))
  intro x y hx _ hxy
  obtain ⟨q1, q2, -, -, -, -, htext, -⟩ := execAll_patternAt s x hx
  have : 0 < x.2.text.length := by rw [htext]; simp
  omega

/-- Every match is an occurrence of the pattern in the input. -/
theorem mem_execAll_occurs (s : List Char) :
    ∀ x ∈ execAll s, ∃ pre q1 q2 post, isQuote q1 = true ∧ isQuote q2 = true ∧
      x.2.group1 ≠ [] ∧ (∀ c ∈ x.2.group1, isQuote c = false) ∧
      x.2.text = 't' :: '(' :: q1 :: (x.2.group1 ++ [q2, ')']) ∧
      s = pre ++ x.2.text ++ post := by
  intro x hx
  obtain ⟨q1, q2, hq1, hq2, hk, hno, htext, post, hpre⟩ := execAll_patternAt s x hx
  refine ⟨s.take x.1, q1, q2, post, hq1, hq2, hk, hno, htext, ?_⟩
  rw [List.append_assoc, hpre, List.take_append_drop]

theorem isQuote_t : isQuote 't' = false := by decide

theorem isQuote_open : isQuote '(' = false := by decide

theorem isQuote_close : isQuote ')' = false := by decide

/-- An occurrence of the call pattern whose literal does not begin with `)` and
which starts after the first three characters of a match starts after the
whole match: it cannot begin inside the literal of the match. -/
theorem occurrence_after_match (q qc : Char) (k post : List Char) (hq : isQuote q = true)
    (hk : k ≠ []) (hhead : k.head? ≠ some ')') (q2 : Char) (hq2 : isQuote q2 = true)
    (after : List Char) :
    ∀ (k1 : List Char), (∀ c ∈ k1, isQuote c = false) → ∀ (pre : List Char),
      k1 ++ q2 :: ')' :: after = pre ++ 't' :: '(' :: q :: (k ++ qc :: ')' :: post) →
      ∃ pre2, after = pre2 ++ 't' :: '(' :: q :: (k ++ qc :: ')' :: post) := by
  intro k1
  induction k1 with
  | nil =>
    intro _ pre h
    cases pre with
    | nil =>
      simp only [List.nil_append, List.cons.injEq] at h
      have := h.1 ▸ hq2
      rw [isQuote_t] at this
      exact absurd this (by simp)
    | cons c pre =>
      simp only [List.nil_append, List.cons_append, List.cons.injEq] at h
      cases pre with
      | nil =>
        simp only [List.nil_append, List.cons.injEq] at h
        exact absurd h.2.1 (by decide)
      | cons d pre =>
        simp only [List.cons_append, List.cons.injEq] at h
        exact ⟨pre, h.2.2⟩
  | cons c k1 ih =>
    intro hno pre h
    have hno2 : ∀ d ∈ k1, isQuote d = false := fun d hd => hno d (List.mem_cons_of_mem _ hd)
    cases pre with
    | cons d pre =>
      simp only [List.cons_append, List.cons.injEq] at h
      exact ih hno2 pre h.2
    | nil =>
      simp only [List.nil_append, List.cons_append, List.cons.injEq] at h
      obtain ⟨-, h⟩ := h
      cases k1 with
      | nil =>
        simp only [List.nil_append, List.cons.injEq] at h
        have := h.1 ▸ hq2
        rw [isQuote_open] at this
        exact absurd this (by simp)
      | cons e k1 =>
        simp only [List.cons_append, List.cons.injEq] at h
        obtain ⟨-, h⟩ := h
        cases k1 with
        | cons f k1 =>
          simp only [List.cons_append, List.cons.injEq] at h
          have hf : isQuote f = false := hno f (by simp)
          rw [h.1, hq] at hf
          exact absurd hf (by simp)
        | nil =>
          simp only [List.nil_append, List.cons.injEq] at h
          obtain ⟨-, h⟩ := h
          cases k with
          | nil => exact absurd rfl hk
          | cons g k =>
            simp only [List.cons_append, List.cons.injEq] at h
            rw [← h.1] at hhead
            exact absurd rfl hhead

/-- An occurrence of the call pattern whose literal does not begin with `)` is
found by the `exec` loop. -/
theorem occurrence_mem_execAll (q qc : Char) (k post : List Char) (hq : isQuote q = true)
    (hqc : isQuote qc = true) (hk : k ≠ []) (hno : ∀ c ∈ k, isQuote c = false)
    (hhead : k.head? ≠ some ')') :
    ∀ (n i : Nat) (s : List Char), s.length ≤ n → ∀ (pre : List Char),
      s = pre ++ 't' :: '(' :: q :: (k ++ qc :: ')' :: post) →
      ∃ x ∈ execFrom i s, x.2.group1 = k := by
  intro n
  induction n with
  | zero =>
    intro i s hs pre h
    have : s = [] := List.length_eq_zero.mp (Nat.le_zero.mp hs)
    subst this
    cases pre <;> simp at h
  | succ n ih =>
    intro i s hs pre h
    rw [execFrom_unfold]
    cases pre with
    | nil =>
      have hhere : matchHere s = some (⟨'t' :: '(' :: q :: (k ++ [qc, ')']), k⟩, post) :=
        (matchHere_eq_some_iff s _ post).2 ⟨q, qc, k, hq, hqc, hk, hno, by simpa using h, rfl⟩
      rw [hhere]
      exact ⟨_, List.mem_cons_self _ _, rfl⟩
    | cons c pre =>
      cases hmatch : matchHere s with
      | none =>
        subst h
        simp only [List.cons_append]
        simp only [List.cons_append, List.length_cons] at hs
        exact ih _ _ (by omega) pre rfl
      | some r =>
        obtain ⟨m0, after⟩ := r
        simp only
        have hlt := matchHere_length hmatch
        obtain ⟨q1, q2, k1, hq1, hq2, -, hno1, hs2, -⟩ :=
          (matchHere_eq_some_iff s m0 after).1 hmatch
        have hpre : ∃ pre2, after = pre2 ++ 't' :: '(' :: q :: (k ++ qc :: ')' :: post) := by
          rw [hs2] at h
          simp only [List.cons_append, List.cons.injEq] at h
          obtain ⟨-, h⟩ := h
          cases pre with
          | nil =>
            simp only [List.nil_append, List.cons.injEq] at h
            exact absurd h.1 (by decide)
          | cons d pre =>
            simp only [List.cons_append, List.cons.injEq] at h
            obtain ⟨-, h⟩ := h
            cases pre with
            | nil =>
              simp only [List.nil_append, List.cons.injEq] at h
              have := h.1 ▸ hq1
              rw [isQuote_t] at this
              exact absurd this (by simp)
            | cons e pre =>
              simp only [List.cons_append, List.cons.injEq] at h
              exact occurrence_after_match q qc k post hq hk hhead q2 hq2 after k1 hno1 pre h.2
        obtain ⟨pre2, hafter⟩ := hpre
        obtain ⟨m, hm, hmk⟩ := ih _ after (by omega) pre2 hafter
        exact ⟨m, List.mem_cons_of_mem _ hm, hmk⟩

end Translation2Json

namespace Translation2Json

/-! ## Properties of the key extractor -/

/-- The text occurs in the content exactly when the content is some text, the
text, and some more text. -/
theorem occursIn_iff (text content : String) :
    occursIn text content ↔ ∃ pre post : String, content = pre ++ text ++ post := by
  constructor
  · rintro ⟨s, t, h⟩
    exact ⟨String.mk s, String.mk t, String.ext (by simp [h])⟩
  · rintro ⟨pre, post, h⟩
    exact ⟨pre.data, post.data, by rw [h]; simp⟩

theorem isQuote_iff (c : Char) : isQuote c = true ↔ c = singleQuote ∨ c = doubleQuote := by
  simp [isQuote]

theorem mem_extractTranslationKeys (content k : String) :
    k ∈ extractTranslationKeys content ↔
      ∃ x ∈ execAll content.data, String.mk x.2.group1 = k := by
  simp [extractTranslationKeys, mem_foldl_setAdd, matchedLiterals]

/-- A non-empty literal without quotes that does not begin with `)` is returned
whenever it occurs in the call pattern between two single or two double
quotes. -/
theorem occurrence_found (content k : String) (hk : k ≠ "")
    (hno : ∀ c ∈ k.data, c ≠ singleQuote ∧ c ≠ doubleQuote)
    (hhead : k.data.head? ≠ some ')')
    (hocc : occursIn ("t('" ++ k ++ "')") content ∨
      occursIn ("t(\x22" ++ k ++ "\x22)") content) :
    k ∈ extractTranslationKeys content := by
  have hk2 : k.data ≠ [] := fun h => hk (String.ext (by simpa using h))
  have hno2 : ∀ c ∈ k.data, isQuote c = false := by
    intro c hc
    have := hno c hc
    cases hq : isQuote c with
    | false => rfl
    | true => exact absurd ((isQuote_iff c).1 hq) (by tauto)
  have key : ∀ q : Char, isQuote q = true →
      (∃ pre post : String, content.data = pre.data ++ 't' :: '(' :: q :: (k.data ++ q :: ')' :: post.data)) →
      k ∈ extractTranslationKeys content := by
    rintro q hq ⟨pre, post, h⟩
    obtain ⟨x, hx, hxk⟩ := occurrence_mem_execAll q q k.data post.data hq hq hk2 hno2 hhead
      content.data.length 0 content.data (le_refl _) pre.data h
    rw [mem_extractTranslationKeys]
    exact ⟨x, hx, by rw [hxk]⟩
  rcases hocc with hocc | hocc
  · obtain ⟨pre, post, h⟩ := (occursIn_iff _ _).1 hocc
    exact key singleQuote (by decide) ⟨pre, post, by rw [h]; simp; rfl⟩
  · obtain ⟨pre, post, h⟩ := (occursIn_iff _ _).1 hocc
    exact key doubleQuote (by decide) ⟨pre, post, by rw [h]; simp; rfl⟩

/-- Claim C4: the matches `extractTranslationKeys` finds stand in the content at
their offsets, one after the other without overlap, and the pattern is matched
wherever it stands outside the inside of a match; the returned list has no
duplicates, holds exactly the literals of these matches, and lists them by the
offset of their first match: `a` comes before `b` exactly when some match of `a`
starts before every match of `b`. -/
theorem extractTranslationKeys_first_appearance (content : String) :
    (∀ x ∈ execAll content.data, PatternAt content.data x.1 x.2) ∧
    (execAll content.data).Pairwise (fun x y => x.1 + x.2.text.length ≤ y.1) ∧
    (∀ p m, PatternAt content.data p m →
      (∀ x ∈ execAll content.data, ¬ (x.1 < p ∧ p < x.1 + x.2.text.length)) →
      (p, m) ∈ execAll content.data) ∧
    (extractTranslationKeys content).Nodup ∧
    (∀ k, k ∈ extractTranslationKeys content ↔
      ∃ x ∈ execAll content.data, String.mk x.2.group1 = k) ∧
    (∀ a b, List.indexOf a (extractTranslationKeys content)
          < List.indexOf b (extractTranslationKeys content) ↔
        ∃ x ∈ execAll content.data, String.mk x.2.group1 = a ∧
          ∀ y ∈ execAll content.data, String.mk y.2.group1 = b → x.1 < y.1) := by
  refine ⟨execAll_patternAt _, execFrom_sorted _ 0 _ (le_refl _), ?_,
    nodup_foldl_setAdd _ [] List.nodup_nil, mem_extractTranslationKeys content, ?_⟩
  · intro p m hp hfree
    have := execFrom_complete content.data.length 0 content.data (le_refl _) p m hp
      (by simpa [execAll] using hfree)
    simpa [execAll] using this
  · intro a b
    have h1 := order_foldl_setAdd (matchedLiterals content) [] a b
    simp only [List.nil_append] at h1
    unfold extractTranslationKeys
    rw [h1]
    exact indexOf_map_lt_iff (fun x => String.mk x.2.group1) _
      (execAll_increasing content.data) a b

/-- Claim C5, counterexample: the content `t('at(')')` contains the text `t(')')`,
whose literal `)` is non-empty and has no quote, but the only key returned is
`at(`: the occurrence begins inside the literal of an earlier match. -/
theorem extract_misses_overlapped_occurrence :
    occursIn ("t('" ++ ")" ++ "')") "t('at(')')" ∧ ")" ≠ "" ∧
      (∀ c ∈ (")" : String).data, c ≠ singleQuote ∧ c ≠ doubleQuote) ∧
      extractTranslationKeys "t('at(')')" = ["at("] ∧
      ")" ∉ extractTranslationKeys "t('at(')')" := by
  refine ⟨by decide, by decide, by decide, by decide, by decide⟩

/-- Claim C5, amended: a non-empty literal `k` without quotes that does not begin
with `)` is returned whenever the content contains `t('k')` or `t("k")`. -/
theorem extractTranslationKeys_complete (content k : String) (hk : k ≠ "")
    (hno : ∀ c ∈ k.data, c ≠ singleQuote ∧ c ≠ doubleQuote)
    (hhead : k.data.head? ≠ some ')')
    (hocc : occursIn ("t('" ++ k ++ "')") content ∨
      occursIn ("t(\x22" ++ k ++ "\x22)") content) :
    k ∈ extractTranslationKeys content :=
  occurrence_found content k hk hno hhead hocc

theorem extractTranslationKeys_complete_witness :
    "Save" ∈ extractTranslationKeys "x = t('Save')" :=
  extractTranslationKeys_complete "x = t('Save')" "Save" (by decide) (by decide) (by decide)
    (Or.inl (by decide))

/-- Claim C6, counterexample: from the content `t('a")` the key `a` is returned,
although the content contains neither `t('a')` nor `t("a")`: the opening and the
closing quote differ. -/
theorem extract_accepts_mixed_quotes :
    extractTranslationKeys "t('a\x22)" = ["a"] ∧
      ¬ occursIn "t('a')" "t('a\x22)" ∧ ¬ occursIn "t(\x22a\x22)" "t('a\x22)" := by
  refine ⟨by decide, by decide, by decide⟩

/-- Claim C6, amended: every returned key `k` is non-empty, has no quote, and the
content contains `t(`, a quote, `k`, a quote and `)` in a row, where each of the
two quotes is a single or a double quote, not necessarily the same. -/
theorem extractTranslationKeys_sound (content k : String)
    (h : k ∈ extractTranslationKeys content) :
    ∃ q1 q2 : Char, (q1 = singleQuote ∨ q1 = doubleQuote) ∧
      (q2 = singleQuote ∨ q2 = doubleQuote) ∧
      occursIn ("t(" ++ String.singleton q1 ++ k ++ String.singleton q2 ++ ")") content ∧
      k ≠ "" ∧ ∀ c ∈ k.data, c ≠ singleQuote ∧ c ≠ doubleQuote := by
  rw [mem_extractTranslationKeys] at h
  obtain ⟨x, hx, hxk⟩ := h
  obtain ⟨pre, q1, q2, post, hq1, hq2, hne, hno, htext, hs⟩ :=
    mem_execAll_occurs content.data x hx
  subst hxk
  refine ⟨q1, q2, (isQuote_iff q1).1 hq1, (isQuote_iff q2).1 hq2, ?_, ?_, ?_⟩
  · refine ⟨pre, post, ?_⟩
    rw [hs, htext]
    simp
  · intro h0
    apply hne
    have := congrArg String.data h0
    simpa using this
  · intro c hc
    have hc2 := hno c hc
    constructor
    · intro h1
      rw [(isQuote_iff c).2 (Or.inl h1)] at hc2
      exact absurd hc2 (by simp)
    · intro h1
      rw [(isQuote_iff c).2 (Or.inr h1)] at hc2
      exact absurd hc2 (by simp)

theorem extractTranslationKeys_sound_witness :
    ∃ q1 q2 : Char, (q1 = singleQuote ∨ q1 = doubleQuote) ∧
      (q2 = singleQuote ∨ q2 = doubleQuote) ∧
      occursIn ("t(" ++ String.singleton q1 ++ "a" ++ String.singleton q2 ++ ")") "t('a\x22)" ∧
      "a" ≠ "" ∧ ∀ c ∈ ("a" : String).data, c ≠ singleQuote ∧ c ≠ doubleQuote :=
  extractTranslationKeys_sound "t('a\x22)" "a" (by decide)

/-- Claim C7, counterexample: the call `t('a` / `b')`, split over two lines inside
its literal, is matched, and the returned key contains the line break. -/
theorem extract_matches_across_lines :
    extractTranslationKeys "t('a\nb')" = ["a\nb"] ∧
      ("a\nb" : String).data.any isLineTerminator = true := by
  decide

/-- Claim C7, amended: every match stands in the content as `t(`, a quote, the
literal, a quote and `)` in a row, so the text of a match holds a line
terminator only when the literal does, and a call is not matched when a line
break separates `t(` from the opening quote or the closing quote from `)`; a
literal that holds a line terminator (and does not begin with `)`) is returned
like any other literal. -/
theorem match_line_break_only_in_literal (content : String) :
    (∀ x ∈ execAll content.data, PatternAt content.data x.1 x.2 ∧
      x.2.text.any isLineTerminator = x.2.group1.any isLineTerminator) ∧
    (∀ k : String, k ≠ "" → (∀ c ∈ k.data, c ≠ singleQuote ∧ c ≠ doubleQuote) →
      k.data.head? ≠ some ')' → k.data.any isLineTerminator = true →
      (occursIn ("t('" ++ k ++ "')") content ∨ occursIn ("t(\x22" ++ k ++ "\x22)") content) →
      k ∈ extractTranslationKeys content) := by
  constructor
  · intro x hx
    have hp := execAll_patternAt content.data x hx
    refine ⟨hp, ?_⟩
    obtain ⟨q1, q2, hq1, hq2, -, -, htext, -⟩ := hp
    have h1 : isLineTerminator q1 = false := by
      rcases (isQuote_iff q1).1 hq1 with h | h <;> rw [h] <;> decide
    have h2 : isLineTerminator q2 = false := by
      rcases (isQuote_iff q2).1 hq2 with h | h <;> rw [h] <;> decide
    have h3 : isLineTerminator 't' = false := by decide
    have h4 : isLineTerminator '(' = false := by decide
    have h5 : isLineTerminator ')' = false := by decide
    rw [htext]
    simp [List.any_cons, List.any_append, h1, h2, h3, h4, h5]
  · intro k hk hno hhead _ hocc
    exact occurrence_found content k hk hno hhead hocc

/-- A call whose literal stands on a line of its own is not matched. -/
theorem split_call_not_matched : extractTranslationKeys "t(\n'c'\n)" = [] := by
  decide

end Translation2Json

namespace Translation2Json

/-! ## Properties of the file collector -/

/-- The name test of the collector holds exactly for the names that end in one
of the four extensions. -/
theorem matchesSupported_iff (name : String) :
    matchesSupported name = true ↔
      ∃ ext ∈ supportedExtensions, ∃ stem : String, name = stem ++ ext := by
  unfold matchesSupported
  rw [List.any_eq_true]
  constructor
  · rintro ⟨ext, hext, hsuf⟩
    rw [List.isSuffixOf_iff_suffix] at hsuf
    obtain ⟨t, ht⟩ := hsuf
    exact ⟨ext, hext, String.mk t, String.ext (by simp [ht])⟩
  · rintro ⟨ext, hext, stem, h⟩
    refine ⟨ext, hext, ?_⟩
    rw [List.isSuffixOf_iff_suffix]
    exact ⟨stem.data, by rw [h]; simp⟩

theorem matchesSupported_ne_node_modules (name : String) (h : matchesSupported name = true) :
    name ≠ "node_modules" := by
  intro h0
  rw [h0] at h
  exact absurd h (by decide)

theorem hasFile_nil (l : Listing) : l.hasFile [] = false := by
  induction l with
  | done => rfl
  | file name rest ih => simp [Listing.hasFile, ih]
  | dir name children rest _ ih => simp [Listing.hasFile, ih]

/-- Every collected path is the root path followed by a relative path that names
a file of the listing, ends in a name with a supported extension, and has no
component `node_modules`. -/
theorem getSupportedFiles_rel (l : Listing) : ∀ (dir p : Path), p ∈ getSupportedFiles dir l →
    ∃ rel name, p = dir ++ rel ∧ l.hasFile rel = true ∧ rel.getLast? = some name ∧
      matchesSupported name = true ∧ "node_modules" ∉ rel := by
  induction l with
  | done => intro dir p h; simp [getSupportedFiles] at h
  | file name rest ih =>
    intro dir p h
    simp only [getSupportedFiles, List.mem_append] at h
    rcases h with h | h
    · by_cases hm : matchesSupported name = true
      · simp only [hm, if_true, List.mem_singleton] at h
        refine ⟨[name], name, h, by simp [Listing.hasFile], rfl, hm, ?_⟩
        simpa using (matchesSupported_ne_node_modules name hm).symm
      · simp [hm] at h
    · obtain ⟨rel, nm, h1, h2, h3, h4, h5⟩ := ih dir p h
      exact ⟨rel, nm, h1, by simp [Listing.hasFile, h2], h3, h4, h5⟩
  | dir name children rest ihc ihr =>
    intro dir p h
    simp only [getSupportedFiles, List.mem_append] at h
    rcases h with h | h
    · by_cases hn : name = "node_modules"
      · simp [hn] at h
      · simp only [ne_eq, hn, not_false_eq_true, if_true] at h
        obtain ⟨rel, nm, h1, h2, h3, h4, h5⟩ := ihc (dir ++ [name]) p h
        refine ⟨name :: rel, nm, by simp [h1], by simp [Listing.hasFile, h2], ?_, h4, ?_⟩
        · cases rel with
          | nil => simp at h3
          | cons c rel => simpa [List.getLast?_cons_cons] using h3
        · simp only [List.mem_cons, not_or]
          exact ⟨fun h0 => hn h0.symm, h5⟩
    · obtain ⟨rel, nm, h1, h2, h3, h4, h5⟩ := ihr dir p h
      exact ⟨rel, nm, h1, by simp [Listing.hasFile, h2], h3, h4, h5⟩

/-- Every file of the listing that has a supported extension and is not below a
directory named `node_modules` is collected. -/
theorem getSupportedFiles_all (l : Listing) : ∀ (dir rel : Path) (name : String),
    l.hasFile rel = true → rel.getLast? = some name → matchesSupported name = true →
    "node_modules" ∉ rel → dir ++ rel ∈ getSupportedFiles dir l := by
  induction l with
  | done => intro dir rel name h; simp [Listing.hasFile] at h
  | file nm rest ih =>
    intro dir rel name h hlast hm hno
    simp only [Listing.hasFile, Bool.or_eq_true, beq_iff_eq] at h
    simp only [getSupportedFiles, List.mem_append]
    rcases h with h | h
    · left
      subst h
      simp only [List.getLast?_singleton, Option.some.injEq] at hlast
      subst hlast
      simp [hm]
    · right
      exact ih dir rel name h hlast hm hno
  | dir nm children rest ihc ihr =>
    intro dir rel name h hlast hm hno
    simp only [Listing.hasFile, Bool.or_eq_true] at h
    simp only [getSupportedFiles, List.mem_append]
    rcases h with h | h
    · left
      cases rel with
      | nil => simp at h
      | cons c q =>
        simp only [Bool.and_eq_true, beq_iff_eq] at h
        obtain ⟨hc, hq⟩ := h
        subst hc
        simp only [List.mem_cons, not_or] at hno
        have hne : c ≠ "node_modules" := fun h0 => hno.1 h0.symm
        have hq2 : q ≠ [] := by
          intro h0
          rw [h0, hasFile_nil] at hq
          exact absurd hq (by simp)
        have hlast2 : q.getLast? = some name := by
          cases q with
          | nil => exact absurd rfl hq2
          | cons e q => simpa [List.getLast?_cons_cons] using hlast
        simp only [ne_eq, hne, not_false_eq_true, if_true]
        have := ihc (dir ++ [c]) q name hq hlast2 hm hno.2
        simpa using this
    · right
      exact ihr dir rel name h hlast hm hno

/-- Claim C8: for the root `src` of the program and every path the walk reaches
from it (entry names other than `node_modules` appended), the returned paths
are exactly the root path followed by the relative path of a file of the tree
whose name ends in `.js`, `.jsx`, `.tsx` or `.vue` and that is not below a
directory named `node_modules`; so every returned path names a file with one of
the four extensions and has no component `node_modules`. -/
theorem getSupportedFiles_supported (sub : Path) (l : Listing) (p : Path)
    (hsub : ∀ c ∈ sub, isEntryName c = true ∧ c ≠ "node_modules") :
    (p ∈ getSupportedFiles ("src" :: sub) l ↔
      ∃ rel name, p = "src" :: sub ++ rel ∧ l.hasFile rel = true ∧
        rel.getLast? = some name ∧
        (∃ ext ∈ supportedExtensions, ∃ stem : String, name = stem ++ ext) ∧
        "node_modules" ∉ rel) ∧
    (p ∈ getSupportedFiles ("src" :: sub) l →
      "node_modules" ∉ p ∧
      ∃ name, p.getLast? = some name ∧
        ∃ ext ∈ supportedExtensions, ∃ stem : String, name = stem ++ ext) := by
  constructor
  · constructor
    · intro h
      obtain ⟨rel, name, h1, h2, h3, h4, h5⟩ := getSupportedFiles_rel l _ p h
      exact ⟨rel, name, by simpa using h1, h2, h3, (matchesSupported_iff name).1 h4, h5⟩
    · rintro ⟨rel, name, h1, h2, h3, h4, h5⟩
      have := getSupportedFiles_all l ("src" :: sub) rel name h2 h3
        ((matchesSupported_iff name).2 h4) h5
      rw [h1]
      simpa using this
  · intro h
    obtain ⟨rel, name, h1, h2, h3, h4, h5⟩ := getSupportedFiles_rel l _ p h
    constructor
    · rw [h1]
      simp only [List.mem_append, List.mem_cons, not_or]
      refine ⟨⟨by decide, ?_⟩, h5⟩
      intro h0
      exact (hsub _ h0).2 rfl
    · refine ⟨name, ?_, (matchesSupported_iff name).1 h4⟩
      rw [h1]
      cases rel with
      | nil => simp at h3
      | cons c rel =>
        rw [List.getLast?_append_of_ne_nil _ (by simp)]
        exact h3

theorem getSupportedFiles_supported_witness :
    ((["src", "views", "Home.vue"] : Path) ∈ getSupportedFiles ("src" :: ["views"])
        (.file "Home.vue" (.dir "node_modules" (.file "x.js" .done) .done)) ↔
      ∃ rel name, (["src", "views", "Home.vue"] : Path) = "src" :: ["views"] ++ rel ∧
        (Listing.file "Home.vue" (.dir "node_modules" (.file "x.js" .done) .done)).hasFile rel
          = true ∧
        rel.getLast? = some name ∧
        (∃ ext ∈ supportedExtensions, ∃ stem : String, name = stem ++ ext) ∧
        "node_modules" ∉ rel) ∧
    ((["src", "views", "Home.vue"] : Path) ∈ getSupportedFiles ("src" :: ["views"])
        (.file "Home.vue" (.dir "node_modules" (.file "x.js" .done) .done)) →
      "node_modules" ∉ (["src", "views", "Home.vue"] : Path) ∧
      ∃ name, (["src", "views", "Home.vue"] : Path).getLast? = some name ∧
        ∃ ext ∈ supportedExtensions, ∃ stem : String, name = stem ++ ext) :=
  getSupportedFiles_supported ["views"]
    (.file "Home.vue" (.dir "node_modules" (.file "x.js" .done) .done))
    ["src", "views", "Home.vue"] (by decide)

/-- The files collected from the source tree of the examples. -/
theorem sample_files :
    getSupportedFiles ["src"] sampleSrc = [["src", "App.js"], ["src", "views", "Home.vue"]] := by
  decide

end Translation2Json

namespace Translation2Json

/-! ## Tables and the translation loop -/

theorem get_map_replace (key : String) (value : JVal) (k : String) : ∀ (t : Table),
    Table.get (t.map (fun e => if e.1 = key then (key, value) else e)) k =
      if k = key then (Table.get t key).map (fun _ => value) else Table.get t k := by
  intro t
  induction t with
  | nil => simp [Table.get]
  | cons e t ih =>
    obtain ⟨a, b⟩ := e
    unfold Table.get at ih ⊢
    simp only [List.map_cons]
    by_cases ha : a = key
    · subst ha
      by_cases hk : k = a
      · subst hk
        simp [List.lookup_cons]
      · have hk2 : (k == a) = false := by simpa using hk
        simp only [if_true, List.lookup_cons, hk2, ih, hk, if_false]
    · simp only [ha, if_false, List.lookup_cons]
      by_cases hk : k = a
      · subst hk
        simp [ha]
      · have hk2 : (k == a) = false := by simpa using hk
        have hka : (key == a) = false := by simpa using fun h : key = a => ha h.symm
        simp only [hk2, ih, hka]

theorem get_append_entry (key : String) (value : JVal) (k : String) (t : Table) :
    Table.get (t ++ [(key, value)]) k =
      match Table.get t k with
      | some v => some v
      | none => if k = key then some value else none := by
  unfold Table.get
  rw [List.lookup_append]
  cases h : List.lookup k t with
  | some v => simp
  | none =>
    by_cases hk : k = key
    · subst hk; simp
    · have hk2 : (k == key) = false := by simpa using hk
      simp [List.lookup_cons, hk2, hk]

/-- After `translations[key] = value` the key holds the value, provided the key
is an own property already or is not `__proto__`. -/
theorem get_assign_self (t : Table) (key : String) (value : JVal)
    (h : (t.get key).isSome = true ∨ key ≠ "__proto__") :
    (t.assign key value).get key = some value := by
  unfold Table.assign
  by_cases hs : (t.get key).isSome = true
  · simp only [hs, if_true, get_map_replace]
    obtain ⟨v, hv⟩ := Option.isSome_iff_exists.1 hs
    simp [hv]
  · have hp : key ≠ "__proto__" := h.resolve_left hs
    have hn : t.get key = none := by simpa using hs
    rw [if_neg hs, if_neg hp, get_append_entry, hn]
    simp

/-- The assignment `translations[key] = value` leaves every other key as it was. -/
theorem get_assign_other (t : Table) (key : String) (value : JVal) (k : String)
    (hk : k ≠ key) : (t.assign key value).get k = t.get k := by
  unfold Table.assign
  by_cases hs : (t.get key).isSome = true
  · simp only [hs, if_true, get_map_replace, hk, if_false]
  · by_cases hp : key = "__proto__"
    · rw [if_neg hs, if_pos hp]
    · rw [if_neg hs, if_neg hp, get_append_entry]
      cases t.get k <;> simp [hk]

theorem translateLoop_get_not_mem (post : Network) (langCode : String) (k : String) :
    ∀ (keys : List String) (st : LoopState), k ∉ keys →
      (translateLoop post langCode keys st).translations.get k = st.translations.get k := by
  intro keys
  induction keys with
  | nil => intro st _; rfl
  | cons key rest ih =>
    intro st hk
    simp only [List.mem_cons, not_or] at hk
    simp only [translateLoop]
    rw [ih _ hk.2]
    exact get_assign_other _ _ _ _ hk.1

theorem translateLoop_get_mem (post : Network) (langCode : String) (k : String) :
    ∀ (keys : List String) (st : LoopState), k ∈ keys →
      ((st.translations.get k).isSome = true ∨ k ≠ "__proto__") →
      (translateLoop post langCode keys st).translations.get k
        = some (.str (translateText post k langCode).1) := by
  intro keys
  induction keys with
  | nil => intro st hk; simp at hk
  | cons key rest ih =>
    intro st hk hown
    simp only [translateLoop]
    by_cases hkey : k = key
    · subst hkey
      have hset := get_assign_self st.translations k (.str (translateText post k langCode).1) hown
      by_cases hrest : k ∈ rest
      · exact ih _ hrest (Or.inl (by simp [hset]))
      · rw [translateLoop_get_not_mem post langCode k rest _ hrest]
        exact hset
    · have hrest : k ∈ rest := by
        rcases List.mem_cons.1 hk with h | h
        · exact absurd h hkey
        · exact h
      apply ih _ hrest
      simp only
      rw [get_assign_other _ _ _ _ hkey]
      exact hown

theorem translateLoop_translated (post : Network) (langCode : String) :
    ∀ (keys : List String) (st : LoopState),
      (translateLoop post langCode keys st).translated = st.translated ++ keys := by
  intro keys
  induction keys with
  | nil => intro st; simp [translateLoop]
  | cons key rest ih => intro st; simp [translateLoop, ih]

theorem translateLoop_en_requests (post : Network) :
    ∀ (keys : List String) (st : LoopState),
      (translateLoop post "en" keys st).requests = st.requests := by
  intro keys
  induction keys with
  | nil => intro st; rfl
  | cons key rest ih => intro st; simp [translateLoop, ih, translateText]

/-- A pending key is an own property of the table or is not named `__proto__`,
so the assignment in the loop stores its value. -/
theorem isMissing_assignable (existing : Table) (k : String) (h : isMissing existing k = true) :
    (existing.get k).isSome = true ∨ k ≠ "__proto__" := by
  unfold isMissing at h
  cases hg : existing.get k with
  | some v => left; rfl
  | none =>
    right
    rw [hg] at h
    intro h0
    rw [h0] at h
    exact absurd h (by decide)

theorem collectKeys_nodup (readFileSync : Path → String) (files : List Path) :
    (collectKeys readFileSync files).Nodup := by
  unfold collectKeys
  have : ∀ (fs : List Path) (acc : List String), acc.Nodup →
      (fs.foldl (fun allKeys file =>
        (extractTranslationKeys (readFileSync file)).foldl setAdd allKeys) acc).Nodup := by
    intro fs
    induction fs with
    | nil => intro acc h; simpa using h
    | cons f fs ih =>
      intro acc h
      rw [List.foldl_cons]
      exact ih _ (nodup_foldl_setAdd _ _ h)
  exact this files [] List.nodup_nil

/-- With a language code the run is carried out; its parts are those computed by
the steps of `generateTranslations`. -/
theorem generateTranslations_eq (post : Network) (readFileSync : Path → String) (src : Listing)
    (langFile : LangFile) (langCode : String) (h : langCode ≠ "") :
    generateTranslations post readFileSync src langFile (some langCode) =
      some ⟨getSupportedFiles ["src"] src,
        collectKeys readFileSync (getSupportedFiles ["src"] src),
        (collectKeys readFileSync (getSupportedFiles ["src"] src)).filter
          (isMissing (loadExistingTranslations langFile)),
        (translateLoop post langCode
          ((collectKeys readFileSync (getSupportedFiles ["src"] src)).filter
            (isMissing (loadExistingTranslations langFile)))
          ⟨loadExistingTranslations langFile, [], []⟩).translated,
        (translateLoop post langCode
          ((collectKeys readFileSync (getSupportedFiles ["src"] src)).filter
            (isMissing (loadExistingTranslations langFile)))
          ⟨loadExistingTranslations langFile, [], []⟩).requests,
        (translateLoop post langCode
          ((collectKeys readFileSync (getSupportedFiles ["src"] src)).filter
            (isMissing (loadExistingTranslations langFile)))
          ⟨loadExistingTranslations langFile, [], []⟩).translations,
        writtenTable (translateLoop post langCode
          ((collectKeys readFileSync (getSupportedFiles ["src"] src)).filter
            (isMissing (loadExistingTranslations langFile)))
          ⟨loadExistingTranslations langFile, [], []⟩).translations⟩ := by
  simp [generateTranslations, h]

/-- The global key set holds exactly the keys extracted from the collected
files. -/
theorem mem_collectKeys (readFileSync : Path → String) (files : List Path) (k : String) :
    k ∈ collectKeys readFileSync files ↔
      ∃ f ∈ files, k ∈ extractTranslationKeys (readFileSync f) := by
  unfold collectKeys
  have : ∀ (fs : List Path) (acc : List String),
      k ∈ fs.foldl (fun allKeys file =>
        (extractTranslationKeys (readFileSync file)).foldl setAdd allKeys) acc ↔
      k ∈ acc ∨ ∃ f ∈ fs, k ∈ extractTranslationKeys (readFileSync f) := by
    intro fs
    induction fs with
    | nil => intro acc; simp
    | cons f fs ih =>
      intro acc
      rw [List.foldl_cons, ih, mem_foldl_setAdd]
      simp only [List.mem_cons, exists_eq_or_imp]
      tauto
  simpa using this files []

/-! ## The written file -/

theorem get_writtenTable (k : String) : ∀ (t : Table),
    (writtenTable t).get k = (t.get k).map jsonWritten := by
  intro t
  induction t with
  | nil => rfl
  | cons e t ih =>
    obtain ⟨a, b⟩ := e
    unfold writtenTable Table.get at ih ⊢
    simp only [List.map_cons, List.lookup_cons]
    cases k == a with
    | true => rfl
    | false => exact ih

mutual
theorem jsonWritten_idem : ∀ v : JVal, jsonWritten (jsonWritten v) = jsonWritten v
  | .null => by simp [jsonWritten]
  | .bool _ => by simp [jsonWritten]
  | .num _ => by simp [jsonWritten]
  | .infinity _ => by simp [jsonWritten]
  | .str _ => by simp [jsonWritten]
  | .arr items => by simp [jsonWritten, jsonWrittenItems_idem items]
  | .obj fields => by simp [jsonWritten, jsonWrittenFields_idem fields]
theorem jsonWrittenItems_idem : ∀ a : JArr,
    jsonWrittenItems (jsonWrittenItems a) = jsonWrittenItems a
  | .nil => by simp [jsonWrittenItems]
  | .cons head tail => by
    simp [jsonWrittenItems, jsonWritten_idem head, jsonWrittenItems_idem tail]
theorem jsonWrittenFields_idem : ∀ o : JObj,
    jsonWrittenFields (jsonWrittenFields o) = jsonWrittenFields o
  | .nil => by simp [jsonWrittenFields]
  | .cons _ value rest => by
    simp [jsonWrittenFields, jsonWritten_idem value, jsonWrittenFields_idem rest]
end

mutual
theorem jsonWritten_representable : ∀ v : JVal, v.representable = true → jsonWritten v = v
  | .null, _ => by simp [jsonWritten]
  | .bool _, _ => by simp [jsonWritten]
  | .num _, _ => by simp [jsonWritten]
  | .infinity _, h => by simp [JVal.representable] at h
  | .str _, _ => by simp [jsonWritten]
  | .arr items, h => by
    simp only [JVal.representable] at h
    simp [jsonWritten, jsonWrittenItems_representable items h]
  | .obj fields, h => by
    simp only [JVal.representable] at h
    simp [jsonWritten, jsonWrittenFields_representable fields h]
theorem jsonWrittenItems_representable : ∀ a : JArr, a.representable = true →
    jsonWrittenItems a = a
  | .nil, _ => by simp [jsonWrittenItems]
  | .cons head tail, h => by
    simp only [JArr.representable, Bool.and_eq_true] at h
    simp [jsonWrittenItems, jsonWritten_representable head h.1,
      jsonWrittenItems_representable tail h.2]
theorem jsonWrittenFields_representable : ∀ o : JObj, o.representable = true →
    jsonWrittenFields o = o
  | .nil, _ => by simp [jsonWrittenFields]
  | .cons _ value rest, h => by
    simp only [JObj.representable, Bool.and_eq_true] at h
    simp [jsonWrittenFields, jsonWritten_representable value h.1,
      jsonWrittenFields_representable rest h.2]
end

/-- A truthy value other than an infinity is written as a truthy value. -/
theorem truthy_jsonWritten (v : JVal) (ht : v.truthy = true)
    (hfin : ∀ negative, v ≠ .infinity negative) : (jsonWritten v).truthy = true := by
  cases v with
  | infinity negative => exact absurd rfl (hfin negative)
  | null => simp [JVal.truthy] at ht
  | bool b => simpa [jsonWritten] using ht
  | num q => simpa [jsonWritten] using ht
  | str s => simpa [jsonWritten] using ht
  | arr items => simp [jsonWritten, JVal.truthy]
  | obj fields => simp [jsonWritten, JVal.truthy]

theorem writtenTable_idem (t : Table) : writtenTable (writtenTable t) = writtenTable t := by
  unfold writtenTable
  rw [List.map_map]
  apply List.map_congr_left
  intro e _
  simp [jsonWritten_idem]

/-! ## The translator client -/

theorem head_dropWhile {p : Char → Bool} : ∀ (l : List Char) (c : Char),
    (l.dropWhile p).head? = some c → p c = false := by
  intro l
  induction l with
  | nil => intro c h; simp at h
  | cons x l ih =>
    intro c h
    by_cases hx : p x = true
    · rw [List.dropWhile_cons_of_pos hx] at h
      exact ih c h
    · rw [List.dropWhile_cons_of_neg hx] at h
      simp only [List.head?_cons, Option.some.injEq] at h
      subst h
      simpa using hx

/-- The method `trim` removes the leading and the trailing white space. -/
theorem jsTrim_spec (s : String) : IsTrimOf s (jsTrim s) := by
  have h1 := List.takeWhile_append_dropWhile isJsWhitespace s.data
  have h2 := List.takeWhile_append_dropWhile isJsWhitespace
    (s.data.dropWhile isJsWhitespace).reverse
  have h3 : s.data.dropWhile isJsWhitespace =
      ((s.data.dropWhile isJsWhitespace).reverse.dropWhile isJsWhitespace).reverse ++
        ((s.data.dropWhile isJsWhitespace).reverse.takeWhile isJsWhitespace).reverse := by
    rw [← List.reverse_append, h2, List.reverse_reverse]
  refine ⟨s.data.takeWhile isJsWhitespace,
    ((s.data.dropWhile isJsWhitespace).reverse.takeWhile isJsWhitespace).reverse, ?_, ?_, ?_, ?_, ?_⟩
  · simp only [jsTrim]
    rw [List.append_assoc, ← h3, h1]
  · intro c hc
    exact List.mem_takeWhile_imp hc
  · intro c hc
    exact List.mem_takeWhile_imp (List.mem_reverse.1 hc)
  · intro c hc
    simp only [jsTrim] at hc
    apply head_dropWhile s.data c
    rw [h3]
    cases hD : ((s.data.dropWhile isJsWhitespace).reverse.dropWhile isJsWhitespace).reverse with
    | nil => rw [hD] at hc; simp at hc
    | cons x xs => rw [hD] at hc; simpa using hc
  · intro c hc
    simp only [jsTrim, List.getLast?_reverse] at hc
    exact head_dropWhile _ c hc

theorem getMember_val_obj (base : PropertyRead) (key : String) (v : JVal) (hkey : key ≠ "0")
    (h : getMember base key = .val v) :
    ∃ fields, base = .val (.obj fields) ∧ fields.get key = some v := by
  cases base with
  | threw => simp [getMember] at h
  | undefined => simp [getMember] at h
  | val w =>
    cases w with
    | obj fields =>
      refine ⟨fields, rfl, ?_⟩
      simp only [getMember] at h
      cases hg : fields.get key with
      | none => rw [hg] at h; simp at h
      | some u => rw [hg] at h; simpa using h
    | _ => simp [getMember, hkey] at h

theorem getMember_zero_obj (base : PropertyRead) (first : JObj)
    (h : getMember base "0" = .val (.obj first)) :
    ∃ choices, base = .val choices ∧ firstElement choices = some (.obj first) := by
  cases base with
  | threw => simp [getMember] at h
  | undefined => simp [getMember] at h
  | val w =>
    refine ⟨w, rfl, ?_⟩
    cases w with
    | obj fields =>
      simp only [getMember] at h
      simp only [firstElement]
      cases hg : fields.get "0" with
      | none => rw [hg] at h; simp at h
      | some u => rw [hg] at h; simpa using h
    | arr items =>
      cases items with
      | nil => simp [getMember] at h
      | cons head tail => simpa [getMember, firstElement] using h
    | str s =>
      simp only [getMember] at h
      split at h <;> simp at h
    | _ => simp [getMember] at h

/-- The expression `response.data.choices[0].message.content.trim()` can be
evaluated exactly when the body holds a string as the content of its first
completion, and is then evaluated on that string. -/
theorem completionContent_iff (data : JVal) (content : String) :
    completionContent data = some content ↔ FirstCompletionContent data content := by
  constructor
  · intro h
    unfold completionContent at h
    have h4 : getMember (getMember (getMember (getMember (.val data) "choices") "0") "message")
        "content" = .val (.str content) := by
      split at h
      · rename_i s hs
        simp only [Option.some.injEq] at h
        rw [hs, h]
      · simp at h
    obtain ⟨message, h3, hc⟩ := getMember_val_obj _ "content" _ (by decide) h4
    obtain ⟨first, h2, hm⟩ := getMember_val_obj _ "message" _ (by decide) h3
    obtain ⟨choices, h1, hf⟩ := getMember_zero_obj _ first h2
    obtain ⟨fields, h0, hch⟩ := getMember_val_obj _ "choices" _ (by decide) h1
    simp only [PropertyRead.val.injEq] at h0
    exact ⟨fields, choices, first, message, h0, hch, hf, hm, hc⟩
  · rintro ⟨fields, choices, first, message, rfl, hch, hf, hm, hc⟩
    have h1 : getMember (.val (.obj fields)) "choices" = .val choices := by
      simp [getMember, hch]
    have h2 : getMember (.val choices) "0" = .val (.obj first) := by
      cases choices with
      | arr items =>
        cases items with
        | nil => simp [firstElement] at hf
        | cons head tail =>
          simp only [firstElement, Option.some.injEq] at hf
          simp [getMember, hf]
      | obj cf =>
        simp only [firstElement] at hf
        simp [getMember, hf]
      | _ => simp [firstElement] at hf
    have h3 : getMember (.val (.obj first)) "message" = .val (.obj message) := by
      simp [getMember, hm]
    have h4 : getMember (.val (.obj message)) "content" = .val (.str content) := by
      simp [getMember, hc]
    simp [completionContent, h1, h2, h3, h4]

end Translation2Json

namespace Translation2Json

/-! ## Properties of the orchestrator -/

/-- A key that stands in a source file is a global key. -/
theorem sourceKey_collected (readFileSync : Path → String) (src : Listing) (k : String)
    (h : SourceKey readFileSync src k) :
    k ∈ collectKeys readFileSync (getSupportedFiles ["src"] src) := by
  obtain ⟨rel, name, hfile, hlast, hext, hnm, hk, hno, hhead, hocc⟩ := h
  rw [mem_collectKeys]
  refine ⟨"src" :: rel, ?_, occurrence_found _ k hk hno hhead hocc⟩
  have := getSupportedFiles_all src ["src"] rel name hfile hlast
    ((matchesSupported_iff name).2 hext) hnm
  simpa using this

/-- Claim C1, counterexample: the key `Hello` is a key of the existing table, with
the empty string as its value, and it is pending all the same. -/
theorem newKeys_holds_key_with_empty_value :
    (Table.get [("Hello", .str "")] "Hello").isSome = true ∧
      (generateTranslations stubNetwork (fun _ => "t('Hello')") (.file "App.js" .done)
        (.parsed [("Hello", .str "")]) (some "zh")).map Run.newKeys = some ["Hello"] := by
  decide

theorem isMissing_iff (existing : Table) (k : String) (hk : k ∉ objectPrototypeKeys) :
    isMissing existing k = true ↔ ∀ v, existing.get k = some v → v.truthy = false := by
  unfold isMissing
  cases hg : existing.get k with
  | some v => simp
  | none => simpa using hk

/-- Claim C1, amended: the pending keys are global keys, in the order of the
global key set and without duplicates, and a key that is not the name of a
property of `Object.prototype` is pending exactly when it is a global key whose
value in the existing table is missing or falsy. -/
theorem newKeys_missing_or_falsy (post : Network) (readFileSync : Path → String)
    (src : Listing) (langFile : LangFile) (langCode : String) (h : langCode ≠ "") :
    ∃ r, generateTranslations post readFileSync src langFile (some langCode) = some r ∧
      r.newKeys.Nodup ∧ r.newKeys.Sublist r.allKeys ∧
      ∀ k, k ∉ objectPrototypeKeys →
        (k ∈ r.newKeys ↔ k ∈ r.allKeys ∧
          ∀ v, (loadExistingTranslations langFile).get k = some v → v.truthy = false) := by
  refine ⟨_, generateTranslations_eq post readFileSync src langFile langCode h, ?_, ?_, ?_⟩
  · exact (collectKeys_nodup readFileSync _).filter _
  · exact List.filter_sublist _
  · intro k hk
    simp only [List.mem_filter]
    rw [isMissing_iff _ k hk]

theorem newKeys_missing_or_falsy_witness :
    ∃ r, generateTranslations stubNetwork sampleRead sampleSrc
        (.parsed [("Hello", .str "你好"), ("Save", .str "")]) (some "zh") = some r ∧
      r.newKeys.Nodup ∧ r.newKeys.Sublist r.allKeys ∧
      ∀ k, k ∉ objectPrototypeKeys →
        (k ∈ r.newKeys ↔ k ∈ r.allKeys ∧
          ∀ v, (loadExistingTranslations
              (.parsed [("Hello", .str "你好"), ("Save", .str "")])).get k = some v →
            v.truthy = false) :=
  newKeys_missing_or_falsy stubNetwork sampleRead sampleSrc
    (.parsed [("Hello", .str "你好"), ("Save", .str "")]) "zh" (by decide)

/-- In the written table a pending key holds the string `translateText` returned
for it. -/
theorem written_get_pending (post : Network) (langCode : String) (existing : Table)
    (keys : List String) (k : String) (hk : k ∈ keys.filter (isMissing existing)) :
    (writtenTable (translateLoop post langCode (keys.filter (isMissing existing))
        ⟨existing, [], []⟩).translations).get k
      = some (.str (translateText post k langCode).1) := by
  have hmiss : isMissing existing k = true := (List.mem_filter.1 hk).2
  rw [get_writtenTable, translateLoop_get_mem post langCode k _ ⟨existing, [], []⟩ hk
    (isMissing_assignable _ k hmiss)]
  simp [jsonWritten]

/-- Claim C2: with a language code the run is carried out, whatever the network
answers.  The pending keys are the keys extracted from the collected files that
the filter keeps (among them every key that stands in a source file and that
the filter keeps), `translateText` is called with each of them in turn, and in
the written table a pending key holds the content of the first completion of
its response, without the white space around it, when its call succeeds, and
the key itself when the call is rejected or the body holds no such content;
every other key is written as the existing table holds it. -/
theorem pending_key_translation (post : Network) (readFileSync : Path → String)
    (src : Listing) (langFile : LangFile) (langCode : String) (h : langCode ≠ "") :
    ∃ r, generateTranslations post readFileSync src langFile (some langCode) = some r ∧
      (∀ k, k ∈ r.newKeys ↔
        (∃ f ∈ getSupportedFiles ["src"] src, k ∈ extractTranslationKeys (readFileSync f)) ∧
          isMissing (loadExistingTranslations langFile) k = true) ∧
      (∀ k, SourceKey readFileSync src k →
        isMissing (loadExistingTranslations langFile) k = true → k ∈ r.newKeys) ∧
      r.translated = r.newKeys ∧
      (∀ k, k ∉ r.newKeys →
        r.written.get k = ((loadExistingTranslations langFile).get k).map jsonWritten) ∧
      ∀ k ∈ r.newKeys, langCode ≠ "en" →
        (∀ data content, post langCode k = .resolved data →
            FirstCompletionContent data content →
            ∃ t, IsTrimOf content t ∧ r.written.get k = some (.str t)) ∧
        (∀ data, post langCode k = .resolved data →
            (∀ content, ¬ FirstCompletionContent data content) →
            r.written.get k = some (.str k)) ∧
        (∀ failure, post langCode k = .rejected failure →
            r.written.get k = some (.str k)) := by
  refine ⟨_, generateTranslations_eq post readFileSync src langFile langCode h,
    ?_, ?_, ?_, ?_, ?_⟩
  · intro k
    simp only [List.mem_filter, mem_collectKeys]
  · intro k hsrc hmiss
    exact List.mem_filter.2 ⟨sourceKey_collected readFileSync src k hsrc, hmiss⟩
  · simp [translateLoop_translated]
  · intro k hk
    simp only at hk ⊢
    rw [get_writtenTable, translateLoop_get_not_mem post langCode k _ _ hk]
  · intro k hk hen
    simp only at hk ⊢
    rw [written_get_pending post langCode _ _ k hk]
    refine ⟨?_, ?_, ?_⟩
    · intro data content hp hc
      have hcc := (completionContent_iff data content).2 hc
      exact ⟨jsTrim content, jsTrim_spec content, by simp [translateText, hen, hp, hcc]⟩
    · intro data hp hnone
      have hcc : completionContent data = none := by
        cases h0 : completionContent data with
        | none => rfl
        | some c => exact absurd ((completionContent_iff data c).1 h0) (hnone c)
      simp [translateText, hen, hp, hcc]
    · intro failure hp
      simp [translateText, hen, hp]

theorem pending_key_translation_witness :
    ∃ r, generateTranslations stubNetwork sampleRead sampleSrc .absent (some "zh") = some r ∧
      (∀ k, k ∈ r.newKeys ↔
        (∃ f ∈ getSupportedFiles ["src"] sampleSrc, k ∈ extractTranslationKeys (sampleRead f)) ∧
          isMissing (loadExistingTranslations .absent) k = true) ∧
      (∀ k, SourceKey sampleRead sampleSrc k →
        isMissing (loadExistingTranslations .absent) k = true → k ∈ r.newKeys) ∧
      r.translated = r.newKeys ∧
      (∀ k, k ∉ r.newKeys →
        r.written.get k = ((loadExistingTranslations .absent).get k).map jsonWritten) ∧
      ∀ k ∈ r.newKeys, "zh" ≠ "en" →
        (∀ data content, stubNetwork "zh" k = .resolved data →
            FirstCompletionContent data content →
            ∃ t, IsTrimOf content t ∧ r.written.get k = some (.str t)) ∧
        (∀ data, stubNetwork "zh" k = .resolved data →
            (∀ content, ¬ FirstCompletionContent data content) →
            r.written.get k = some (.str k)) ∧
        (∀ failure, stubNetwork "zh" k = .rejected failure →
            r.written.get k = some (.str k)) :=
  pending_key_translation stubNetwork sampleRead sampleSrc .absent "zh" (by decide)

/-- Claim C3, counterexample: the existing entry `Save` with the empty string as
its value is translated again, and the written table holds another value for
it; and the entry `Big`, read as an infinity from `"Big": 1e400`, is written as
`null`. -/
theorem entry_with_empty_value_overwritten :
    Table.get [("Save", .str "")] "Save" = some (.str "") ∧
      (generateTranslations stubNetwork sampleRead sampleSrc
        (.parsed [("Save", .str "")]) (some "zh")).map (fun r => r.written.get "Save")
        = some (some (.str "保存")) ∧
      Table.get bigTable "Big" = some (.infinity false) ∧
      (generateTranslations stubNetwork sampleRead sampleSrc
        (.parsed bigTable) (some "zh")).map (fun r => r.written.get "Big")
        = some (some .null) := by
  decide

/-- Claim C3, amended: the global keys are the keys extracted from the collected
files.  An entry of the existing table whose value is truthy, or whose key is
not a global key, is written under its key as `JSON.stringify` writes its value:
with the same value, unless the value holds an infinity.  An entry whose value
is falsy and whose key is a global key is translated again: `translateText` is
called with its key and the result is written in place of its value. -/
theorem truthy_entries_kept (post : Network) (readFileSync : Path → String)
    (src : Listing) (langFile : LangFile) (langCode : String) (h : langCode ≠ "") :
    ∃ r, generateTranslations post readFileSync src langFile (some langCode) = some r ∧
      (∀ k, k ∈ r.allKeys ↔
        ∃ f ∈ getSupportedFiles ["src"] src, k ∈ extractTranslationKeys (readFileSync f)) ∧
      (∀ k, SourceKey readFileSync src k → k ∈ r.allKeys) ∧
      (∀ k v, (loadExistingTranslations langFile).get k = some v →
        (v.truthy = true ∨ k ∉ r.allKeys) →
        r.written.get k = some (jsonWritten v) ∧
          (v.representable = true → r.written.get k = some v)) ∧
      (∀ k v, (loadExistingTranslations langFile).get k = some v → v.truthy = false →
        k ∈ r.allKeys →
        k ∈ r.translated ∧
          r.written.get k = some (.str (translateText post k langCode).1)) := by
  refine ⟨_, generateTranslations_eq post readFileSync src langFile langCode h,
    ?_, ?_, ?_, ?_⟩
  · intro k
    simp only [mem_collectKeys]
  · intro k hsrc
    exact sourceKey_collected readFileSync src k hsrc
  · intro k v hv hor
    simp only at hor ⊢
    have hnot : k ∉ (collectKeys readFileSync (getSupportedFiles ["src"] src)).filter
        (isMissing (loadExistingTranslations langFile)) := by
      intro hk
      obtain ⟨hall, hmiss⟩ := List.mem_filter.1 hk
      unfold isMissing at hmiss
      rw [hv] at hmiss
      rcases hor with ht | hn
      · simp only [ht] at hmiss
        exact absurd hmiss (by decide)
      · exact hn hall
    have hw : (writtenTable (translateLoop post langCode
        ((collectKeys readFileSync (getSupportedFiles ["src"] src)).filter
          (isMissing (loadExistingTranslations langFile)))
        ⟨loadExistingTranslations langFile, [], []⟩).translations).get k
          = some (jsonWritten v) := by
      rw [get_writtenTable, translateLoop_get_not_mem post langCode k _ _ hnot]
      simp [hv]
    refine ⟨hw, ?_⟩
    intro hrep
    rw [hw, jsonWritten_representable v hrep]
  · intro k v hv hf hall
    simp only at hall ⊢
    have hk : k ∈ (collectKeys readFileSync (getSupportedFiles ["src"] src)).filter
        (isMissing (loadExistingTranslations langFile)) := by
      refine List.mem_filter.2 ⟨hall, ?_⟩
      simp [isMissing, hv, hf]
    refine ⟨?_, written_get_pending post langCode _ _ k hk⟩
    rw [translateLoop_translated]
    simpa using hk

theorem truthy_entries_kept_witness :
    ∃ r, generateTranslations stubNetwork sampleRead sampleSrc
        (.parsed [("Save", .str "存"), ("Old", .str "")]) (some "zh") = some r ∧
      (∀ k, k ∈ r.allKeys ↔
        ∃ f ∈ getSupportedFiles ["src"] sampleSrc, k ∈ extractTranslationKeys (sampleRead f)) ∧
      (∀ k, SourceKey sampleRead sampleSrc k → k ∈ r.allKeys) ∧
      (∀ k v, (loadExistingTranslations
          (.parsed [("Save", .str "存"), ("Old", .str "")])).get k = some v →
        (v.truthy = true ∨ k ∉ r.allKeys) →
        r.written.get k = some (jsonWritten v) ∧
          (v.representable = true → r.written.get k = some v)) ∧
      (∀ k v, (loadExistingTranslations
          (.parsed [("Save", .str "存"), ("Old", .str "")])).get k = some v →
        v.truthy = false → k ∈ r.allKeys →
        k ∈ r.translated ∧
          r.written.get k = some (.str (translateText stubNetwork k "zh").1)) :=
  truthy_entries_kept stubNetwork sampleRead sampleSrc
    (.parsed [("Save", .str "存"), ("Old", .str "")]) "zh" (by decide)

/-- Claim C9: for the language code `en`, `translateText` returns the text
unchanged and sends no request; a run for `en` sends no request, its pending
keys are the keys extracted from the collected files that the filter keeps
(among them every key that stands in a source file and that the filter keeps),
`translateText` is called with each of them, and each is written under
itself. -/
theorem translateText_en (post : Network) (text : String) :
    translateText post text "en" = (text, []) ∧
      ∀ (readFileSync : Path → String) (src : Listing) (langFile : LangFile),
        ∃ r, generateTranslations post readFileSync src langFile (some "en") = some r ∧
          r.requests = [] ∧
          (∀ k, k ∈ r.newKeys ↔
            (∃ f ∈ getSupportedFiles ["src"] src,
                k ∈ extractTranslationKeys (readFileSync f)) ∧
              isMissing (loadExistingTranslations langFile) k = true) ∧
          (∀ k, SourceKey readFileSync src k →
            isMissing (loadExistingTranslations langFile) k = true → k ∈ r.newKeys) ∧
          r.translated = r.newKeys ∧
          ∀ k ∈ r.newKeys, r.written.get k = some (.str k) := by
  refine ⟨by simp [translateText], ?_⟩
  intro readFileSync src langFile
  refine ⟨_, generateTranslations_eq post readFileSync src langFile "en" (by decide),
    ?_, ?_, ?_, ?_, ?_⟩
  · simp [translateLoop_en_requests]
  · intro k
    simp only [List.mem_filter, mem_collectKeys]
  · intro k hsrc hmiss
    exact List.mem_filter.2 ⟨sourceKey_collected readFileSync src k hsrc, hmiss⟩
  · simp [translateLoop_translated]
  · intro k hk
    simp only at hk ⊢
    rw [written_get_pending post "en" _ _ k hk]
    simp [translateText]

/-- Claim C10, counterexample: the language file holds `"Big": 1e400`, read as an
infinity, and the sources hold the keys `Big` and `Save`.  The first run has the
one pending key `Save`, which receives a non-empty string, and writes `Big` as
`null`; the second run, loading that table, finds `Big` pending and sends a
request for it. -/
theorem second_run_translates_overflowed_entry :
    (generateTranslations stubNetwork bigRead (.file "App.js" .done) (.parsed bigTable)
        (some "zh")).map (fun r => (r.newKeys, r.written))
      = some (["Save"], [("Big", .null), ("Save", .str "保存")]) ∧
    (generateTranslations stubNetwork bigRead (.file "App.js" .done)
        (.parsed [("Big", .null), ("Save", .str "保存")])
        (some "zh")).map (fun r => (r.newKeys, r.requests))
      = some (["Big"], [("zh", "Big")]) := by
  decide

/-- Claim C10, amended: when every pending key of a run received a non-empty
string and no global key has an infinity as its value in the loaded table, a
second run over the same source files that loads the table the first run wrote
has the same global keys and no pending key, calls `translateText` for no key,
sends no request, and writes the table it loaded. -/
theorem second_run_changes_nothing (post post2 : Network) (readFileSync : Path → String)
    (src : Listing) (langFile : LangFile) (langCode : String) (r1 : Run)
    (h1 : generateTranslations post readFileSync src langFile (some langCode) = some r1)
    (hne : ∀ k ∈ r1.newKeys, ∃ s, s ≠ "" ∧ r1.written.get k = some (.str s))
    (hfin : ∀ k ∈ r1.allKeys, ∀ negative,
      (loadExistingTranslations langFile).get k ≠ some (.infinity negative)) :
    (∀ k, k ∈ r1.newKeys ↔
      (∃ f ∈ getSupportedFiles ["src"] src, k ∈ extractTranslationKeys (readFileSync f)) ∧
        isMissing (loadExistingTranslations langFile) k = true) ∧
    (∀ k, SourceKey readFileSync src k →
      isMissing (loadExistingTranslations langFile) k = true → k ∈ r1.newKeys) ∧
    ∃ r2, generateTranslations post2 readFileSync src (.parsed r1.written)
        (some langCode) = some r2 ∧
      (∀ k, k ∈ r2.allKeys ↔
        ∃ f ∈ getSupportedFiles ["src"] src, k ∈ extractTranslationKeys (readFileSync f)) ∧
      r2.newKeys = [] ∧ r2.translated = [] ∧ r2.requests = [] ∧
      r2.translations = r1.written ∧ r2.written = r1.written := by
  have hl : langCode ≠ "" := by
    intro h0
    rw [h0] at h1
    simp [generateTranslations] at h1
  rw [generateTranslations_eq post readFileSync src langFile langCode hl] at h1
  have h1 := (Option.some.inj h1).symm
  have hnew : (collectKeys readFileSync (getSupportedFiles ["src"] src)).filter
      (isMissing r1.written) = [] := by
    rw [List.filter_eq_nil_iff]
    intro k hk
    by_cases hk1 : k ∈ r1.newKeys
    · obtain ⟨s, hs, hget⟩ := hne k hk1
      simp [isMissing, hget, JVal.truthy, hs]
    · have hsame : r1.written.get k
          = ((loadExistingTranslations langFile).get k).map jsonWritten := by
        rw [h1]
        rw [h1] at hk1
        simp only
        rw [get_writtenTable, translateLoop_get_not_mem post langCode k _ _ hk1]
      have hold : ¬ isMissing (loadExistingTranslations langFile) k = true := by
        intro hm
        apply hk1
        rw [h1]
        exact List.mem_filter.2 ⟨hk, hm⟩
      have hfin2 := hfin k (by rw [h1]; exact hk)
      unfold isMissing at hold ⊢
      rw [hsame]
      cases hg : (loadExistingTranslations langFile).get k with
      | none => rw [hg] at hold; simpa using hold
      | some v =>
        rw [hg] at hold hfin2
        have ht : v.truthy = true := by simpa using hold
        have := truthy_jsonWritten v ht (fun negative h0 => hfin2 negative (by rw [h0]))
        simp [this]
  refine ⟨?_, ?_, _, generateTranslations_eq post2 readFileSync src (.parsed r1.written)
    langCode hl, ?_, ?_, ?_, ?_, ?_, ?_⟩
  · intro k
    rw [h1]
    simp only [List.mem_filter, mem_collectKeys]
  · intro k hsrc hmiss
    rw [h1]
    exact List.mem_filter.2 ⟨sourceKey_collected readFileSync src k hsrc, hmiss⟩
  · intro k
    simp only [mem_collectKeys]
  · exact hnew
  · simp only [loadExistingTranslations, hnew, translateLoop]
  · simp only [loadExistingTranslations, hnew, translateLoop]
  · simp only [loadExistingTranslations, hnew, translateLoop]
  · simp only [loadExistingTranslations, hnew, translateLoop]
    rw [h1]
    exact writtenTable_idem _

theorem second_run_changes_nothing_witness :
    (∀ k, k ∈ sampleFirst.newKeys ↔
      (∃ f ∈ getSupportedFiles ["src"] sampleSrc, k ∈ extractTranslationKeys (sampleRead f)) ∧
        isMissing (loadExistingTranslations .absent) k = true) ∧
    (∀ k, SourceKey sampleRead sampleSrc k →
      isMissing (loadExistingTranslations .absent) k = true → k ∈ sampleFirst.newKeys) ∧
    ∃ r2, generateTranslations stubNetwork sampleRead sampleSrc
        (.parsed sampleFirst.written) (some "zh") = some r2 ∧
      (∀ k, k ∈ r2.allKeys ↔
        ∃ f ∈ getSupportedFiles ["src"] sampleSrc, k ∈ extractTranslationKeys (sampleRead f)) ∧
      r2.newKeys = [] ∧ r2.translated = [] ∧ r2.requests = [] ∧
      r2.translations = sampleFirst.written ∧ r2.written = sampleFirst.written :=
  second_run_changes_nothing stubNetwork stubNetwork sampleRead sampleSrc .absent "zh"
    sampleFirst (by rfl) (by
      intro k hk
      simp only [sampleFirst, List.mem_cons, List.mem_singleton, List.not_mem_nil,
        or_false] at hk
      rcases hk with rfl | rfl | rfl | rfl
      · exact ⟨"保存", by decide, by decide⟩
      · exact ⟨"Cancel", by decide, by decide⟩
      · exact ⟨"Hello", by decide, by decide⟩
      · exact ⟨"Bye", by decide, by decide⟩) (by
      intro k _ negative
      simp [loadExistingTranslations, Table.get])

/-- A key that is the name of a property of `Object.prototype` is never pending,
whatever the table holds: the filter reads the inherited property. -/
theorem newKeys_skips_prototype_names :
    (generateTranslations stubNetwork (fun _ => "t('constructor') t('Save')")
        (.file "App.js" .done) .absent (some "zh")).map Run.newKeys = some ["Save"] := by
  decide

/-- None of the property names read from a response is inherited from
`Object.prototype`. -/
theorem responseKeys_not_inherited : ∀ k ∈ responseKeys, k ∉ objectPrototypeKeys := by
  decide

/-- The run of the examples: `Save` is translated and trimmed, `Cancel`, whose
request fails, and `Hello` and `Bye`, whose responses are malformed, keep their
own text; `src/node_modules/x.js` is not scanned. -/
theorem sample_run :
    generateTranslations stubNetwork sampleRead sampleSrc .absent (some "zh")
      = some sampleFirst := by
  rfl

/-- The key `Hello` stands in the source file `src/views/Home.vue` of the
examples. -/
theorem sample_sourceKey : SourceKey sampleRead sampleSrc "Hello" :=
  ⟨["views", "Home.vue"], "Home.vue", by decide, rfl, ⟨".vue", by decide, "Home", by decide⟩,
    by decide, by decide, by decide, by decide, Or.inl (by decide)⟩

/-- The matches of an example content with their offsets: the literal `b` is
matched at the offsets 2 and 16, the literal `a` at the offset 9, and the
returned list is `b`, `a`. -/
theorem sample_matches :
    (execAll ("x t('b') t(\x22a\x22) t('b')" : String).data).map
        (fun x => (x.1, String.mk x.2.group1)) = [(2, "b"), (9, "a"), (16, "b")] ∧
      extractTranslationKeys "x t('b') t(\x22a\x22) t('b')" = ["b", "a"] := by
  decide

end Translation2Json
